import Mathlib

/-!
Verification of the html-textify repository: a shallow embedding of the
transformation pipeline (tag-family rewrite passes, generic tag stripping,
entity decoding, newline collapse) and of the two line-wrapping algorithms,
together with theorems settling the frozen claims about the spec.

The JavaScript regular-expression passes of the source are embedded as
executable scanners over `List Char`.  Every scanner is an instance of one
generic fuel-based engine `scanSt`, which models a JS global `replace`:
it walks the string left to right, attempts a match at each position,
emits the replacement and resumes after the match, or copies one character
and advances.  Fuel is initialised to the string length, which always
suffices because every match consumes at least one character.
-/

namespace HtmlTextify

/-- Characters matched by the JS `\s` class (and trimmed by
`String.prototype.trim`); ASCII whitespace plus the Unicode space
characters of the ECMAScript WhiteSpace / LineTerminator productions. -/
def jsWs (c : Char) : Bool :=
  c = ' ' || c = '\t' || c = '\n' || c = '\r' || c = '\x0b' || c = '\x0c' ||
  c = ' ' || c = ' ' ||
  (0x2000 ≤ c.toNat && c.toNat ≤ 0x200A) ||
  c = ' ' || c = ' ' || c = ' ' || c = ' ' ||
  c = '　' || c = '﻿'

/-- ASCII lower-casing of a character, as JS `toLowerCase` acts on the
ASCII range (the only range relevant to tag names, which the source
matches with `[a-z]` under the `i` flag). -/
def lcC : Char → Char
  | 'A' => 'a' | 'B' => 'b' | 'C' => 'c' | 'D' => 'd' | 'E' => 'e' | 'F' => 'f'
  | 'G' => 'g' | 'H' => 'h' | 'I' => 'i' | 'J' => 'j' | 'K' => 'k' | 'L' => 'l'
  | 'M' => 'm' | 'N' => 'n' | 'O' => 'o' | 'P' => 'p' | 'Q' => 'q' | 'R' => 'r'
  | 'S' => 's' | 'T' => 't' | 'U' => 'u' | 'V' => 'v' | 'W' => 'w' | 'X' => 'x'
  | 'Y' => 'y' | 'Z' => 'z'
  | c => c

/-- Lower-case a character list. -/
def lcL (s : List Char) : List Char := s.map lcC

/-- Lower-case a string (models JS `String.prototype.toLowerCase` on the
ASCII range). -/
def lcStr (s : String) : String := ⟨lcL s.data⟩

/-- Case-insensitive character equality (ASCII). -/
def ciEqC (a b : Char) : Bool := lcC a = lcC b

/-- Case-insensitive test that `pat` is a prefix of `s`. -/
def ciPre? : List Char → List Char → Bool
  | [], _ => true
  | _ :: _, [] => false
  | p :: ps, c :: cs => ciEqC p c && ciPre? ps cs

/-- Case-insensitive occurrence test: does `pat` occur (as a contiguous
substring, case-insensitively) anywhere in `s`? -/
def ciOccurs (pat : List Char) : List Char → Bool
  | [] => ciPre? pat []
  | c :: cs => ciPre? pat (c :: cs) || ciOccurs pat cs

/-- JS word character (`\w` of the regex dialect): ASCII letter, digit or
underscore.  Used for `\b` word-boundary tests. -/
def jsWord (c : Char) : Bool :=
  (97 ≤ c.toNat && c.toNat ≤ 122) || (65 ≤ c.toNat && c.toNat ≤ 90) ||
  (48 ≤ c.toNat && c.toNat ≤ 57) || c = '_'

/-- ASCII letter. -/
def asciiLetter (c : Char) : Bool :=
  (97 ≤ c.toNat && c.toNat ≤ 122) || (65 ≤ c.toNat && c.toNat ≤ 90)

/-- ASCII digit. -/
def asciiDigit (c : Char) : Bool := 48 ≤ c.toNat && c.toNat ≤ 57

/-- `String.prototype.trim`: drop JS whitespace from both ends. -/
def jsTrim (s : List Char) : List Char :=
  ((s.dropWhile jsWs).reverse.dropWhile jsWs).reverse

/-- Join a list of pieces with a separator (JS `Array.prototype.flatten`). -/
def joinSep (sep : List Char) : List (List Char) → List Char
  | [] => []
  | [x] => x
  | x :: y :: ys => x ++ sep ++ joinSep sep (y :: ys)

mutual

/-- State A of the JS `split(/\s+/)` machine: currently inside a
(possibly empty) piece accumulated in `acc` (reversed). -/
def jsSplitWsA : List Char → List Char → List (List Char)
  | [], acc => [acc.reverse]
  | c :: rest, acc =>
    if jsWs c then acc.reverse :: jsSplitWsB rest else jsSplitWsA rest (c :: acc)

/-- State B of the JS `split(/\s+/)` machine: inside a whitespace run
(the separator); the piece before it has been emitted. -/
def jsSplitWsB : List Char → List (List Char)
  | [] => [[]]
  | c :: rest => if jsWs c then jsSplitWsB rest else jsSplitWsA rest [c]

end

/-- JS `s.split(/\s+/)`: pieces between maximal whitespace runs,
including empty boundary pieces exactly as ECMAScript produces them. -/
def jsSplitWs (s : List Char) : List (List Char) := jsSplitWsA s []

/-- Split on literal newline characters (JS `s.split('\n')`),
keeping empty pieces. -/
def splitNlA : List Char → List Char → List (List Char)
  | [], acc => [acc.reverse]
  | c :: rest, acc =>
    if c = '\n' then acc.reverse :: splitNlA rest [] else splitNlA rest (c :: acc)

/-- JS `s.split('\n')`. -/
def splitNl (s : List Char) : List (List Char) := splitNlA s []

/-- Character-level whitespace split: every whitespace character is a
separator, empty pieces kept (the spec-side normal form). -/
def splitWsP : List Char → List (List Char)
  | [] => [[]]
  | c :: rest =>
    if jsWs c then [] :: splitWsP rest else (splitWsP rest).modifyHead (c :: ·)

/-- Chunking loop of `wrapByWords`: `for (i = 0; i < words.length; i += count)`.
The first argument is fuel (the loop runs at most `words.length` times). -/
def chunkByF : Nat → Nat → List α → List (List α)
  | _, _, [] => []
  | 0, _, l => [l]
  | _ + 1, 0, l => [l]
  | f + 1, n + 1, x :: xs => (x :: xs.take n) :: chunkByF f (n + 1) (xs.drop n)

/-- Group a list into consecutive chunks of `n` elements (final chunk may
be shorter).  Total via fuel; callers always pass `n > 0`. -/
def chunkBy (n : Nat) (l : List α) : List (List α) := chunkByF l.length n l

/-! ### The generic scan engine -/

/-- One generic engine for all the JS global-`replace` passes.
`step st s` returns `some (out, st', rest)` when the pass's pattern
matches at the head of `s`: `out` is the replacement text and `rest` the
input after the match; `none` means no match at this position, so one
character is copied and scanning advances. -/
def scanSt {σ : Type} (step : σ → List Char → Option (List Char × σ × List Char)) :
    Nat → σ → List Char → List Char
  | 0, _, s => s
  | _ + 1, _, [] => []
  | f + 1, st, c :: cs =>
    match step st (c :: cs) with
    | some (out, st2, rest) => out ++ scanSt step f st2 rest
    | none => c :: scanSt step f st cs

/-- A step function shrinks: any match consumes at least one character. -/
def StepShrinks {σ : Type} (step : σ → List Char → Option (List Char × σ × List Char)) : Prop :=
  ∀ st s out st2 rest, step st s = some (out, st2, rest) → rest.length < s.length

/-- Run a scanner with fuel equal to the input length (always enough,
because each step consumes at least one character). -/
def runScan {σ : Type} (step : σ → List Char → Option (List Char × σ × List Char))
    (st : σ) (s : List Char) : List Char :=
  scanSt step s.length st s

theorem scanSt_fuelIrrel {σ : Type}
    (step : σ → List Char → Option (List Char × σ × List Char))
    (hs : StepShrinks step) :
    ∀ (f g : Nat) (st : σ) (s : List Char), s.length ≤ f → s.length ≤ g →
      scanSt step f st s = scanSt step g st s := by
  intro f
  induction f with
  | zero =>
    intro g st s hf _
    have : s = [] := List.length_eq_zero.mp (Nat.le_zero.mp hf)
    subst this
    cases g <;> rfl
  | succ f ih =>
    intro g st s hf hg
    cases s with
    | nil => cases g <;> rfl
    | cons c cs =>
      cases g with
      | zero => exact absurd hg (by simp)
      | succ g' =>
        show (match step st (c :: cs) with
              | some (out, st2, rest) => out ++ scanSt step f st2 rest
              | none => c :: scanSt step f st cs) =
             (match step st (c :: cs) with
              | some (out, st2, rest) => out ++ scanSt step g' st2 rest
              | none => c :: scanSt step g' st cs)
        cases hstep : step st (c :: cs) with
        | none =>
          simp only
          have h1 : cs.length ≤ f := by simpa using hf
          have h2 : cs.length ≤ g' := by simpa using hg
          rw [ih g' st cs h1 h2]
        | some r =>
          obtain ⟨out, st2, rest⟩ := r
          simp only
          have hlt := hs st (c :: cs) out st2 rest hstep
          have h1 : rest.length ≤ f := Nat.lt_succ_iff.mp (Nat.lt_of_lt_of_le hlt hf)
          have h2 : rest.length ≤ g' := Nat.lt_succ_iff.mp (Nat.lt_of_lt_of_le hlt hg)
          rw [ih g' st2 rest h1 h2]

theorem runScan_nil {σ : Type} (step : σ → List Char → Option (List Char × σ × List Char))
    (st : σ) : runScan step st [] = [] := rfl

theorem runScan_match {σ : Type}
    {step : σ → List Char → Option (List Char × σ × List Char)}
    (hs : StepShrinks step) {st : σ} {s out : List Char} {st2 : σ} {rest : List Char}
    (h : step st s = some (out, st2, rest)) :
    runScan step st s = out ++ runScan step st2 rest := by
  have hlt := hs st s out st2 rest h
  cases s with
  | nil => simp at hlt
  | cons c cs =>
    show scanSt step (c :: cs).length st (c :: cs) = _
    have : scanSt step (cs.length + 1) st (c :: cs) =
        (match step st (c :: cs) with
         | some (out, st2, rest) => out ++ scanSt step cs.length st2 rest
         | none => c :: scanSt step cs.length st cs) := rfl
    rw [show (c :: cs).length = cs.length + 1 from rfl, this, h]
    simp only [runScan]
    rw [scanSt_fuelIrrel step hs cs.length rest.length st2 rest
      (Nat.lt_succ_iff.mp (by simpa using hlt)) (Nat.le_refl _)]

theorem runScan_skip {σ : Type}
    {step : σ → List Char → Option (List Char × σ × List Char)}
    {st : σ} {c : Char} {cs : List Char}
    (h : step st (c :: cs) = none) :
    runScan step st (c :: cs) = c :: runScan step st cs := by
  show scanSt step (c :: cs).length st (c :: cs) = _
  have : scanSt step (cs.length + 1) st (c :: cs) =
      (match step st (c :: cs) with
       | some (out, st2, rest) => out ++ scanSt step cs.length st2 rest
       | none => c :: scanSt step cs.length st cs) := rfl
  rw [show (c :: cs).length = cs.length + 1 from rfl, this, h]
  rfl

/-- A step whose replacement always equals the consumed span. -/
def CopyStep {σ : Type} (step : σ → List Char → Option (List Char × σ × List Char)) : Prop :=
  ∀ st s out st2 rest, step st s = some (out, st2, rest) → s = out ++ rest

theorem scanSt_copy {σ : Type}
    {step : σ → List Char → Option (List Char × σ × List Char)}
    (hc : CopyStep step) :
    ∀ (f : Nat) (st : σ) (s : List Char), scanSt step f st s = s := by
  intro f
  induction f with
  | zero => intro st s; rfl
  | succ f ih =>
    intro st s
    cases s with
    | nil => rfl
    | cons c cs =>
      show (match step st (c :: cs) with
            | some (out, st2, rest) => out ++ scanSt step f st2 rest
            | none => c :: scanSt step f st cs) = c :: cs
      cases hstep : step st (c :: cs) with
      | none => simp only; rw [ih]
      | some r =>
        obtain ⟨out, st2, rest⟩ := r
        simp only
        rw [ih, ← hc st (c :: cs) out st2 rest hstep]

theorem runScan_copy {σ : Type}
    {step : σ → List Char → Option (List Char × σ × List Char)}
    (hc : CopyStep step) (st : σ) (s : List Char) : runScan step st s = s :=
  scanSt_copy hc _ st s

theorem runScan_id_of_none {σ : Type}
    {step : σ → List Char → Option (List Char × σ × List Char)} {st : σ} :
    ∀ {s : List Char}, (∀ a b, s = a ++ b → b ≠ [] → step st b = none) →
      runScan step st s = s := by
  intro s
  induction s with
  | nil => intro _; rfl
  | cons c cs ih =>
    intro h
    rw [runScan_skip (h [] (c :: cs) rfl (by simp))]
    have := ih (fun a b hab hb => h (c :: a) b (by simp [hab]) hb)
    rw [this]

theorem runScan_chunk {σ : Type}
    {step : σ → List Char → Option (List Char × σ × List Char)} {st : σ} :
    ∀ {chunk r : List Char},
      (∀ a b, chunk = a ++ b → b ≠ [] → step st (b ++ r) = none) →
      runScan step st (chunk ++ r) = chunk ++ runScan step st r := by
  intro chunk
  induction chunk with
  | nil => intro r _; simp
  | cons c ch ih =>
    intro r h
    have h0 : step st (c :: (ch ++ r)) = none := h [] (c :: ch) rfl (by simp)
    rw [show (c :: ch) ++ r = c :: (ch ++ r) from rfl, runScan_skip h0,
      ih (fun a b hab hb => h (c :: a) b (by simp [hab]) hb)]
    rfl

/-! ### Lazy searches used by the regex embeddings -/

/-- Index of the first case-insensitive occurrence of `close` (dot-all:
models `(.*?)` under the `s` flag followed by a literal). -/
def findCIDotAll (close : List Char) : List Char → Option Nat
  | [] => if ciPre? close [] then some 0 else none
  | c :: r => if ciPre? close (c :: r) then some 0 else (findCIDotAll close r).map (· + 1)

/-- ECMAScript line terminators, the characters the non-dot-all `.` never
matches: LF, CR, U+2028 LINE SEPARATOR, U+2029 PARAGRAPH SEPARATOR. -/
def jsLineTerm (c : Char) : Bool :=
  c = '\n' || c = '\r' || c.toNat = 8232 || c.toNat = 8233

/-- Index of the first case-insensitive occurrence of `close`, failing if a
line terminator intervenes (models `(.*?)` without the `s` flag). -/
def findCINoNl (close : List Char) : List Char → Option Nat
  | [] => if ciPre? close [] then some 0 else none
  | c :: r =>
    if ciPre? close (c :: r) then some 0
    else if jsLineTerm c then none
    else (findCINoNl close r).map (· + 1)

/-- Index of the first occurrence of a character (models `[^x]*x`). -/
def findCh (ch : Char) : List Char → Option Nat
  | [] => none
  | c :: r => if c = ch then some 0 else (findCh ch r).map (· + 1)

/-! ### Matchers, one per regular expression of the source -/

/-- Match `<br\s*\/?>` (case-insensitive) at the head: returns the rest
after the match. -/
def matchBr : List Char → Option (List Char)
  | '<' :: b :: r :: rest =>
    if ciEqC b 'b' && ciEqC r 'r' then
      match rest.dropWhile jsWs with
      | '/' :: '>' :: t => some t
      | '>' :: t => some t
      | _ => none
    else none
  | _ => none

/-- The `<br>`-to-newline replacement step (`html.replace(/<br\s*\/?>/gi, '\n')`). -/
def brStep : Unit → List Char → Option (List Char × Unit × List Char) :=
  fun _ s => (matchBr s).map fun t => (['\n'], (), t)

/-- Unconditional `<br>`-to-newline conversion (used by the global pass and
again inside the blockquote pass). -/
def brAll (s : List Char) : List Char := runScan brStep () s

/-- The global `<br>` pass: skipped entirely when `'br'` is ignored. -/
def brPassTop (ig : List String) (s : List Char) : List Char :=
  if ig.contains "br" then s else brAll s

/-- Match `<\/(h[1-6]|p)>` (case-insensitive) at the head: returns the
matched span, the lower-cased tag name and the rest. -/
def matchHp : List Char → Option (List Char × List Char × List Char)
  | '<' :: '/' :: c :: rest =>
    if ciEqC c 'p' then
      match rest with
      | '>' :: t => some (['<', '/', c, '>'], ['p'], t)
      | _ => none
    else if ciEqC c 'h' then
      match rest with
      | d :: '>' :: t =>
        if 49 ≤ d.toNat && d.toNat ≤ 54 then some (['<', '/', c, d, '>'], ['h', d], t)
        else none
      | _ => none
    else none
  | _ => none

/-- The headings/paragraph pass: closing `h1`–`h6`/`p` tags become two
newlines unless that tag name is ignored. -/
def hpStep (ig : List String) : Unit → List Char → Option (List Char × Unit × List Char) :=
  fun _ s => (matchHp s).map fun (sp, tag, t) =>
    (if ig.contains ⟨tag⟩ then sp else ['\n', '\n'], (), t)

/-- Match `<tag>(.*?)<\/tag>` (case-insensitive, `.` not matching newline)
at the head for a fixed lower-case tag name: returns (span, content, rest). -/
def matchPairTag (tag s : List Char) : Option (List Char × List Char × List Char) :=
  if ciPre? ('<' :: (tag ++ ['>'])) s then
    let openLen := tag.length + 2
    let afterOpen := s.drop openLen
    match findCINoNl ('<' :: '/' :: (tag ++ ['>'])) afterOpen with
    | some n =>
      let closeLen := tag.length + 3
      some (s.take (openLen + n + closeLen), afterOpen.take n, afterOpen.drop (n + closeLen))
    | none => none
  else none

/-- The emphasis passes (`(b|strong)` wrapped in `**`, `(i|em)` wrapped in
`*`): alternation tries `t1` first, then `t2`; an ignored tag's match is
emitted verbatim. -/
def pairStep (t1 t2 mark : List Char) (ig : List String) :
    Unit → List Char → Option (List Char × Unit × List Char) :=
  fun _ s =>
    match matchPairTag t1 s with
    | some (sp, content, rest) =>
      some (if ig.contains ⟨t1⟩ then sp else mark ++ content ++ mark, (), rest)
    | none =>
      match matchPairTag t2 s with
      | some (sp, content, rest) =>
        some (if ig.contains ⟨t2⟩ then sp else mark ++ content ++ mark, (), rest)
      | none => none

/-- Match `<a\s+href="(.*?)".*?>(.*?)<\/a>` (case-insensitive) at the head:
returns (href, text, rest). -/
def matchLink (s : List Char) : Option (List Char × List Char × List Char) :=
  if ciPre? ['<', 'a'] s then
    let r0 := s.drop 2
    let ws := r0.takeWhile jsWs
    if ws = [] then none
    else
      let r1 := r0.drop ws.length
      if ciPre? ['h', 'r', 'e', 'f', '=', '"'] r1 then
        let r2 := r1.drop 6
        match findCh '"' r2 with
        | some n1 =>
          let href := r2.take n1
          let r3 := r2.drop (n1 + 1)
          match findCINoNl ['>'] r3 with
          | some n2 =>
            let r4 := r3.drop (n2 + 1)
            match findCINoNl ['<', '/', 'a', '>'] r4 with
            | some n3 => some (href, r4.take n3, r4.drop (n3 + 4))
            | none => none
          | none => none
        | none => none
      else none
  else none

/-- The link pass replacement: `[text](href)`. -/
def linkStep : Unit → List Char → Option (List Char × Unit × List Char) :=
  fun _ s => (matchLink s).map fun (href, txt, rest) =>
    ('[' :: txt ++ ']' :: '(' :: href ++ [')'], (), rest)

/-- Match a literal case-insensitive `opener`, then a dot-all lazy body up
to the first case-insensitive `closer`: returns (span, content, rest). -/
def matchBlock (opener closer s : List Char) : Option (List Char × List Char × List Char) :=
  if ciPre? opener s then
    match findCIDotAll closer (s.drop opener.length) with
    | some n =>
      some (s.take (opener.length + n + closer.length),
        (s.drop opener.length).take n,
        (s.drop opener.length).drop (n + closer.length))
    | none => none
  else none

/-- Match `<li>(.*?)<\/li>` (case-insensitive, `.` not matching newline):
returns (span, content, rest). -/
def matchLi (s : List Char) : Option (List Char × List Char × List Char) :=
  if ciPre? ['<', 'l', 'i', '>'] s then
    match findCINoNl ['<', '/', 'l', 'i', '>'] (s.drop 4) with
    | some n => some (s.take (4 + n + 5), (s.drop 4).take n, (s.drop 4).drop (n + 5))
    | none => none
  else none

/-- List-item conversion inside an `<ol>` block: the state is the item
counter, pre-incremented for every converted (non-ignored) item. -/
def liOlStep (ig : List String) : Nat → List Char → Option (List Char × Nat × List Char) :=
  fun counter s => (matchLi s).map fun (sp, content, rest) =>
    if ig.contains "li" then (sp, counter, rest)
    else ((Nat.repr (counter + 1)).data ++ '.' :: ' ' :: (content ++ ['\n']), counter + 1, rest)

/-- List-item conversion inside a `<ul>` block: `- ` prefix, no counter. -/
def liUlStep (ig : List String) : Unit → List Char → Option (List Char × Unit × List Char) :=
  fun _ s => (matchLi s).map fun (sp, content, rest) =>
    (if ig.contains "li" then sp else '-' :: ' ' :: (content ++ ['\n']), (), rest)

/-- The ordered-list pass: each `<ol>...</ol>` block is kept verbatim when
`'ol'` is ignored, else replaced by its content with converted items
(counter restarted at 0 for every block). -/
def olStep (ig : List String) : Unit → List Char → Option (List Char × Unit × List Char) :=
  fun _ s => (matchBlock "<ol>".data "</ol>".data s).map fun (sp, content, rest) =>
    (if ig.contains "ol" then sp else runScan (liOlStep ig) 0 content, (), rest)

/-- The unordered-list pass. -/
def ulStep (ig : List String) : Unit → List Char → Option (List Char × Unit × List Char) :=
  fun _ s => (matchBlock "<ul>".data "</ul>".data s).map fun (sp, content, rest) =>
    (if ig.contains "ul" then sp else runScan (liUlStep ig) () content, (), rest)

/-- Blockquote content transformation: inner `<br>` to newline, trim,
split into lines, prefix every line with `> ` after trimming it, rejoin. -/
def bqTransform (content : List Char) : List Char :=
  joinSep ['\n'] ((splitNl (jsTrim (brAll content))).map fun line => '>' :: ' ' :: jsTrim line)

/-- The blockquote pass step (the whole pass is skipped when
`'blockquote'` is ignored, mirroring the source's conditional). -/
def bqStep : Unit → List Char → Option (List Char × Unit × List Char) :=
  fun _ s => (matchBlock "<blockquote>".data "</blockquote>".data s).map
    fun (_, content, rest) => (bqTransform content, (), rest)

/-- Head test for `<\/t[dh]>` (case-insensitive). -/
def cellClose? : List Char → Bool
  | '<' :: '/' :: t :: d :: '>' :: _ => ciEqC t 't' && (ciEqC d 'd' || ciEqC d 'h')
  | _ => false

/-- Index of the first `<\/t[dh]>` close, failing on a line terminator
(the cell pattern has no `s` flag). -/
def findCellClose : List Char → Option Nat
  | [] => none
  | c :: r =>
    if cellClose? (c :: r) then some 0
    else if jsLineTerm c then none
    else (findCellClose r).map (· + 1)

/-- Match `<t[dh]>(.*?)<\/t[dh]>` (case-insensitive, `.` not matching
newline): returns (span, content, rest). -/
def matchCell (s : List Char) : Option (List Char × List Char × List Char) :=
  match s with
  | '<' :: t :: d :: '>' :: rest =>
    if ciEqC t 't' && (ciEqC d 'd' || ciEqC d 'h') then
      match findCellClose rest with
      | some n => some (s.take (4 + n + 5), rest.take n, rest.drop (n + 5))
      | none => none
    else none
  | _ => none

/-- Table-cell step: content followed by a tab, or the cell verbatim when
`'td'` or `'th'` is ignored. -/
def cellStep (ig : List String) : Unit → List Char → Option (List Char × Unit × List Char) :=
  fun _ s => (matchCell s).map fun (sp, content, rest) =>
    (if ig.contains "td" || ig.contains "th" then sp else content ++ ['\t'], (), rest)

/-- JS `replace(/\t$/, '')`: drop one trailing tab. -/
def stripTrailTab (s : List Char) : List Char :=
  match s.reverse with
  | '\t' :: r => r.reverse
  | _ => s

/-- Match `<tr>(.*?)<\/tr>` (case-insensitive, `.` not matching newline). -/
def matchTr (s : List Char) : Option (List Char × List Char × List Char) :=
  if ciPre? ['<', 't', 'r', '>'] s then
    let body := s.drop 4
    match findCINoNl ['<', '/', 't', 'r', '>'] body with
    | some n => some (s.take (4 + n + 5), body.take n, body.drop (n + 5))
    | none => none
  else none

/-- Table-row step: cells rewritten, the result trimmed, one trailing tab
removed, a newline appended; the row is kept verbatim when `'tr'` is
ignored. -/
def trStep (ig : List String) : Unit → List Char → Option (List Char × Unit × List Char) :=
  fun _ s => (matchTr s).map fun (sp, row, rest) =>
    (if ig.contains "tr" then sp
     else stripTrailTab (jsTrim (runScan (cellStep ig) () row)) ++ ['\n'], (), rest)

/-- The table pass: a `<table>...</table>` block is kept verbatim when
`'table'` is ignored, else its rows are rewritten and the result trimmed. -/
def tableStep (ig : List String) : Unit → List Char → Option (List Char × Unit × List Char) :=
  fun _ s => (matchBlock "<table>".data "</table>".data s).map fun (sp, content, rest) =>
    (if ig.contains "table" then sp else jsTrim (runScan (trStep ig) () content), (), rest)

/-- Alphanumeric class of the `preserveFormat` strip pattern
(`[a-z0-9]` under the `i` flag). -/
def pfClass (c : Char) : Bool := asciiLetter c || asciiDigit c

/-- Body of the `preserveFormat` strip matcher after the `<` and optional
`/` have been consumed: greedy alphanumeric name, then `[^>]*>`. -/
def matchStripPFAux (s : List Char) (slashLen : Nat) (r1 : List Char) :
    Option (List Char × List Char × List Char) :=
  if (r1.takeWhile pfClass) = [] then none
  else
    match findCh '>' (r1.drop (r1.takeWhile pfClass).length) with
    | some n =>
      some (s.take (1 + slashLen + (r1.takeWhile pfClass).length + n + 1),
        lcL (r1.takeWhile pfClass),
        s.drop (1 + slashLen + (r1.takeWhile pfClass).length + n + 1))
    | none => none

/-- Match `<\/?([a-z0-9]+)[^>]*>` (case-insensitive), the generic strip
pattern of `preserveFormat`: returns (span, lower-cased name, rest). -/
def matchStripPF (s : List Char) : Option (List Char × List Char × List Char) :=
  match s with
  | '<' :: '/' :: r1 => matchStripPFAux s 1 r1
  | '<' :: r1 => matchStripPFAux s 0 r1
  | _ => none

/-- `preserveFormat`'s generic strip step: the tag is kept verbatim when its
lower-cased name is in the raw (non-normalized) ignore list. -/
def stripPFStep (ig : List String) : Unit → List Char → Option (List Char × Unit × List Char) :=
  fun _ s => (matchStripPF s).map fun (sp, nm, rest) =>
    (if ig.contains ⟨nm⟩ then sp else [], (), rest)

/-- Match `<[^>]+>`: the empty-ignore-list strip pattern. -/
def matchStripAll (s : List Char) : Option (List Char) :=
  match s with
  | '<' :: r0 =>
    match findCh '>' r0 with
    | some 0 => none
    | some n => some (r0.drop (n + 1))
    | none => none
  | _ => none

/-- The remove-everything strip step. -/
def stripAllStep : Unit → List Char → Option (List Char × Unit × List Char) :=
  fun _ s => (matchStripAll s).map fun rest => ([], (), rest)

/-- Word value of an optional character (out-of-string is a non-word
position for `\b`). -/
def wordO : Option Char → Bool
  | some c => jsWord c
  | none => false

/-- Does a `\b` word boundary hold after the first `k` characters of `run`
(with `next` the character following the whole run)? -/
def boundaryAt (run : List Char) (next : Option Char) (k : Nat) : Bool :=
  wordO (run.get? (k - 1)) != wordO (if k < run.length then run.get? k else next)

/-- Backtracking of `([a-z][a-z0-9-]*)\b`: the longest prefix of the greedy
class run after which a word boundary holds (the regex engine tries the
longest capture first). -/
def pickName (run : List Char) (next : Option Char) : Nat → Option Nat
  | 0 => none
  | k + 1 => if boundaryAt run next (k + 1) then some (k + 1) else pickName run next k

/-- Name class of the `textify` strip pattern (`[a-z0-9-]` under `i`). -/
def txClass (c : Char) : Bool := asciiLetter c || asciiDigit c || c = '-'

/-- Body of the `textify` strip matcher after the `<` and optional `/`:
a letter, the greedy class run, a `\b` word boundary chosen by
backtracking, then `[^>]*>`. -/
def matchStripTxAux (s : List Char) (slashLen : Nat) :
    List Char → Option (List Char × List Char × List Char)
  | [] => none
  | c0 :: r2 =>
    if asciiLetter c0 then
      match pickName (c0 :: r2.takeWhile txClass)
          (r2.drop (r2.takeWhile txClass).length).head?
          (c0 :: r2.takeWhile txClass).length with
      | some k =>
        match findCh '>' (r2.drop (r2.takeWhile txClass).length) with
        | some n =>
          some (s.take (1 + slashLen + (c0 :: r2.takeWhile txClass).length + n + 1),
            lcL ((c0 :: r2.takeWhile txClass).take k),
            s.drop (1 + slashLen + (c0 :: r2.takeWhile txClass).length + n + 1))
        | none => none
      | none => none
    else none

/-- Match `<\/?([a-z][a-z0-9-]*)\b[^>]*>` (case-insensitive), the strip
pattern of `textify`'s strip mode: returns (span, lower-cased captured
name, rest). -/
def matchStripTx (s : List Char) : Option (List Char × List Char × List Char) :=
  match s with
  | '<' :: '/' :: r1 => matchStripTxAux s 1 r1
  | '<' :: r1 => matchStripTxAux s 0 r1
  | _ => none

/-- `textify` strip mode with a non-empty ignore list: tags whose
lower-cased name is in the (lower-cased) ignore set are kept verbatim. -/
def stripTxStep (igL : List String) : Unit → List Char → Option (List Char × Unit × List Char) :=
  fun _ s => (matchStripTx s).map fun (sp, nm, rest) =>
    (if igL.contains ⟨nm⟩ then sp else [], (), rest)

/-- Whitespace normalization step (`/>\s+</g` to `><`). -/
def normStep : Unit → List Char → Option (List Char × Unit × List Char) :=
  fun _ s =>
    match s with
    | '>' :: rest =>
      if rest.takeWhile jsWs = [] then none
      else
        match rest.drop (rest.takeWhile jsWs).length with
        | '<' :: t => some (['>', '<'], (), t)
        | _ => none
    | _ => none

/-- Global case-insensitive replacement of a fixed pattern. -/
def replCIStep (pat rep : List Char) : Unit → List Char → Option (List Char × Unit × List Char) :=
  fun _ s => if ciPre? pat s then some (rep, (), s.drop pat.length) else none

/-- JS `s.replace(pat, rep)` with the `gi` flags for a literal pattern. -/
def replCI (pat rep s : List Char) : List Char := runScan (replCIStep pat rep) () s

/-- The entity decoding pass, in the source's order:
`&nbsp;` then `&amp;` then `&lt;` then `&gt;`. -/
def decodeEntities (s : List Char) : List Char :=
  replCI "&gt;".data ['>'] (replCI "&lt;".data ['<']
    (replCI "&amp;".data ['&'] (replCI "&nbsp;".data [' '] s)))

/-- Emit a collapsed newline run: runs of three or more newlines become
exactly two (`/\n{3,}/g` to `\n\n`). -/
def emitNl (n : Nat) : List Char :=
  if 3 ≤ n then ['\n', '\n'] else List.replicate n '\n'

/-- State machine for the newline-collapse replacement: `n` counts the
newlines of the current run. -/
def collapseGo : List Char → Nat → List Char
  | [], n => emitNl n
  | c :: rest, n =>
    if c = '\n' then collapseGo rest (n + 1) else emitNl n ++ c :: collapseGo rest 0

/-- Collapse every maximal run of three or more newlines to exactly two. -/
def collapseNl (s : List Char) : List Char := collapseGo s 0

/-! ### The pipelines -/

/-- The link pass: skipped entirely when `'a'` is ignored. -/
def linkPassTop (ig : List String) (s : List Char) : List Char :=
  if ig.contains "a" then s else runScan linkStep () s

/-- The blockquote pass: skipped entirely when `'blockquote'` is ignored. -/
def bqPassTop (ig : List String) (s : List Char) : List Char :=
  if ig.contains "blockquote" then s else runScan bqStep () s

/-- The generic strip of `preserveFormat`: remove-everything for an empty
ignore list, else keep-or-remove against the raw ignore entries. -/
def stripPassTop (ig : List String) (s : List Char) : List Char :=
  if ig = [] then runScan stripAllStep () s else runScan (stripPFStep ig) () s

/-- The full `preserveFormat` pass pipeline on character lists, in the
source's order: whitespace normalization, `<br>`, headings/paragraphs,
bold, italic, links, ordered lists, unordered lists, blockquotes, tables,
generic strip, entity decode, newline collapse, trim. -/
def preserveFormatL (ig : List String) (s : List Char) : List Char :=
  jsTrim (collapseNl (decodeEntities (stripPassTop ig
    (runScan (tableStep ig) () (bqPassTop ig
      (runScan (ulStep ig) () (runScan (olStep ig) ()
        (linkPassTop ig
          (runScan (pairStep ['i'] "em".data ['*'] ig) ()
            (runScan (pairStep ['b'] "strong".data "**".data ig) ()
              (runScan (hpStep ig) () (brPassTop ig
                (runScan normStep () s)))))))))))))

/-- `preserveFormat` of `src/src/utils/preserveFormat.ts`. -/
def preserveFormat (html : String) (ignoreTags : List String := []) : String :=
  if html = "" then "" else ⟨preserveFormatL ignoreTags html.data⟩

/-- The word-count wrapping loop body (total; the throwing guard lives in
`wrapByWords`). -/
def wrapByWordsRun (text : String) (count : Nat) : String :=
  ⟨joinSep ['\n'] ((chunkBy count (jsSplitWs (jsTrim text.data))).map (joinSep [' ']))⟩

/-- `wrapByWords` of `src/unnamed/part_000`: throws (modelled as
`Except.error`) when the count is not strictly positive. -/
def wrapByWords (text : String) (count : Int) : Except String String :=
  if count ≤ 0 then .error "wrap count must be greater than 0"
  else .ok (wrapByWordsRun text count.toNat)

/-- Words of a text: the pieces between whitespace runs, empties dropped. -/
def wordsOf (s : List Char) : List (List Char) :=
  (splitWsP s).filter fun w => !w.isEmpty

/-- Modelled from the spec: the source file `src/utils/wrapByLength.ts`
imported by `textify` is not present under `src/`, so the character-budget
greedy wrap is taken from §4.4 of the spec: starting with an empty current
line, a word is placed on an empty line regardless of its length;
otherwise, if appending a space plus the word would push the line past
`L`, the line is emitted and a new line starts with the word; otherwise
the space and word are appended.  The final non-empty line is emitted and
lines are joined with newlines. -/
def greedyGo (L : Int) : List (List Char) → List Char → List (List Char)
  | [], cur => if cur = [] then [] else [cur]
  | w :: ws, cur =>
    if cur = [] then greedyGo L ws w
    else if (cur.length : Int) + 1 + w.length > L then cur :: greedyGo L ws w
    else greedyGo L ws (cur ++ ' ' :: w)

/-- Modelled from the spec: `wrapByLength` (see `greedyGo`). -/
def wrapByLength (text : String) (maxChars : Int) : String :=
  ⟨joinSep ['\n'] (greedyGo maxChars (wordsOf (jsTrim text.data)) [])⟩

/-- A wrap directive is active when it is supplied and strictly positive
(JS `wrapWords && wrapWords > 0`). -/
def optPos : Option Int → Bool
  | some n => 0 < n
  | none => false

/-- Strip mode of `textify`: blanket removal with `/<[^>]+>/g` for an empty
ignore list, else keep-or-remove with the lower-cased ignore set. -/
def textifyStripL (ig : List String) (s : List Char) : List Char :=
  if ig = [] then jsTrim (runScan stripAllStep () s)
  else jsTrim (runScan (stripTxStep (ig.map lcStr)) () s)

/-- `textify` of `src/unnamed/part_001`. -/
def textify (html : String) (preserveFormatting : Bool := true)
    (ignoreTags : List String := []) (wrapLength : Option Int := none)
    (wrapWords : Option Int := none) : String :=
  if html = "" then ""
  else
    let out := if preserveFormatting then preserveFormat html ignoreTags
               else ⟨textifyStripL ignoreTags html.data⟩
    if optPos wrapWords then wrapByWordsRun out (wrapWords.getD 0).toNat
    else if optPos wrapLength then wrapByLength out (wrapLength.getD 0)
    else out

/-! ### Word splitting: relating the JS split machine to the spec's words -/

/-- Spec-side word-count wrapping, written from the claim's words: trim,
split into words, group into chunks of `count`, join with spaces and
newlines. -/
def wrapByWordsSpec (text : String) (count : Nat) : String :=
  ⟨joinSep ['\n'] ((chunkBy count (wordsOf (jsTrim text.data))).map (joinSep [' ']))⟩

theorem splitWsP_ne_nil (s : List Char) : splitWsP s ≠ [] := by
  cases s with
  | nil => simp [splitWsP]
  | cons c rest =>
    show (if jsWs c then [] :: splitWsP rest else (splitWsP rest).modifyHead (c :: ·)) ≠ []
    split
    · simp
    · cases h : splitWsP rest with
      | nil => exact absurd h (splitWsP_ne_nil rest)
      | cons a l => simp [h]

/-- Whether a character list does not start with JS whitespace. -/
def noWsHead : List Char → Prop
  | [] => True
  | c :: _ => jsWs c = false

theorem noWsHead_dropWhile (l : List Char) : noWsHead (l.dropWhile jsWs) := by
  induction l with
  | nil => trivial
  | cons c r ih =>
    by_cases h : jsWs c
    · rw [List.dropWhile_cons_of_pos h]; exact ih
    · rw [List.dropWhile_cons_of_neg h]
      exact eq_false_of_ne_true h

theorem suffix_dropWhile (p : Char → Bool) (l : List Char) : l.dropWhile p <:+ l := by
  induction l with
  | nil => simp
  | cons c r ih =>
    by_cases h : p c
    · rw [List.dropWhile_cons_of_pos h]
      exact ih.trans (List.suffix_cons c r)
    · rw [List.dropWhile_cons_of_neg h]

theorem noWsHead_of_prefix {u v : List Char} (h : v <+: u) (hu : noWsHead u) :
    noWsHead v := by
  obtain ⟨t, ht⟩ := h
  cases v with
  | nil => trivial
  | cons c r =>
    subst ht
    exact hu

theorem jsTrim_reverse_eq (s : List Char) :
    (jsTrim s).reverse = ((s.dropWhile jsWs).reverse).dropWhile jsWs := by
  simp [jsTrim]

theorem noWsHead_jsTrim_reverse (s : List Char) : noWsHead (jsTrim s).reverse := by
  rw [jsTrim_reverse_eq]
  exact noWsHead_dropWhile _

theorem noWsHead_jsTrim (s : List Char) : noWsHead (jsTrim s) := by
  have hsuf : ((s.dropWhile jsWs).reverse).dropWhile jsWs <:+ (s.dropWhile jsWs).reverse :=
    suffix_dropWhile _ _
  have hpre : jsTrim s <+: s.dropWhile jsWs := by
    obtain ⟨t, ht⟩ := hsuf
    refine ⟨t.reverse, ?_⟩
    have := congrArg List.reverse ht
    simpa [jsTrim] using this
  exact noWsHead_of_prefix hpre (noWsHead_dropWhile s)

/-- Joint characterization of the two states of the JS split machine in
terms of the spec-side character split, for inputs whose last character is
not whitespace. -/
theorem jsSplitWs_char (n : Nat) :
    ∀ t : List Char, t.length ≤ n → noWsHead t.reverse →
      ((t ≠ [] → jsSplitWsB t = (splitWsP t).filter fun w => !w.isEmpty) ∧
       (∀ acc h tl, splitWsP t = h :: tl →
         jsSplitWsA t acc = (acc.reverse ++ h) :: tl.filter fun w => !w.isEmpty)) := by
  induction n with
  | zero =>
    intro t ht _
    have : t = [] := List.length_eq_zero.mp (Nat.le_zero.mp ht)
    subst this
    refine ⟨fun h => absurd rfl h, fun acc h tl hsp => ?_⟩
    simp [splitWsP] at hsp
    obtain ⟨h1, h2⟩ := hsp
    subst h1; subst h2
    simp [jsSplitWsA]
  | succ n ih =>
    intro t ht hlast
    cases t with
    | nil =>
      refine ⟨fun h => absurd rfl h, fun acc h tl hsp => ?_⟩
      simp [splitWsP] at hsp
      obtain ⟨h1, h2⟩ := hsp
      subst h1; subst h2
      simp [jsSplitWsA]
    | cons c r =>
      have hr : r.length ≤ n := by simpa using ht
      have hrlast : noWsHead r.reverse := by
        cases hrev : r.reverse with
        | nil => trivial
        | cons x xs =>
          have : (c :: r).reverse = x :: (xs ++ [c]) := by
            simp [hrev]
          rw [this] at hlast
          exact hlast
      by_cases hc : jsWs c
      · -- `c` is whitespace: it is a separator in both machines.
        have hrne : r ≠ [] := by
          intro h
          subst h
          simp [noWsHead, hc] at hlast
        have hB := ((ih r hr hrlast).1) hrne
        constructor
        · intro _
          show (if jsWs c then jsSplitWsB r else jsSplitWsA r [c]) = _
          rw [if_pos hc]
          have : splitWsP (c :: r) = [] :: splitWsP r := by
            simp [splitWsP, hc]
          rw [this, hB]
          simp
        · intro acc h tl hsp
          have hw : splitWsP (c :: r) = [] :: splitWsP r := by
            simp [splitWsP, hc]
          rw [hw] at hsp
          obtain ⟨h1, h2⟩ := List.cons.inj hsp
          subst h1
          show (if jsWs c then acc.reverse :: jsSplitWsB r else jsSplitWsA r (c :: acc)) = _
          rw [if_pos hc, hB, ← h2]
          simp
      · -- `c` is not whitespace: it extends the current piece.
        obtain ⟨h0, tl0, hsp0⟩ : ∃ h0 tl0, splitWsP r = h0 :: tl0 := by
          cases hsp : splitWsP r with
          | nil => exact absurd hsp (splitWsP_ne_nil r)
          | cons a l => exact ⟨a, l, rfl⟩
        have hA := (ih r hr hrlast).2
        have hw : splitWsP (c :: r) = (c :: h0) :: tl0 := by
          simp [splitWsP, hc, hsp0]
        constructor
        · intro _
          show (if jsWs c then jsSplitWsB r else jsSplitWsA r [c]) = _
          rw [if_neg hc, hw, hA [c] h0 tl0 hsp0]
          simp
        · intro acc h tl hsp
          rw [hw] at hsp
          obtain ⟨h1, h2⟩ := List.cons.inj hsp
          show (if jsWs c then acc.reverse :: jsSplitWsB r else jsSplitWsA r (c :: acc)) = _
          rw [if_neg hc, hA (c :: acc) h0 tl0 hsp0, ← h1, ← h2]
          simp

/-- On a trimmed input, the JS split equals the spec's word list, except
that the empty input yields the single empty piece. -/
theorem jsSplitWs_trimmed (t : List Char) (hfront : noWsHead t)
    (hback : noWsHead t.reverse) :
    jsSplitWs t = if t = [] then [[]] else wordsOf t := by
  cases t with
  | nil => simp [jsSplitWs, jsSplitWsA]
  | cons c r =>
    rw [if_neg (by simp)]
    obtain ⟨h0, tl0, hsp0⟩ : ∃ h0 tl0, splitWsP r = h0 :: tl0 := by
      cases hsp : splitWsP r with
      | nil => exact absurd hsp (splitWsP_ne_nil r)
      | cons a l => exact ⟨a, l, rfl⟩
    have hc : jsWs c = false := hfront
    have hw : splitWsP (c :: r) = (c :: h0) :: tl0 := by
      simp [splitWsP, hc, hsp0]
    have hA := (jsSplitWs_char (c :: r).length (c :: r) (Nat.le_refl _) hback).2
      [] (c :: h0) tl0 hw
    rw [jsSplitWs, hA]
    simp [wordsOf, hw]

/-- The code's word-count wrap equals the spec-side description. -/
theorem wrapByWordsRun_eq_spec (text : String) (count : Nat) (hc : 0 < count) :
    wrapByWordsRun text count = wrapByWordsSpec text count := by
  unfold wrapByWordsRun wrapByWordsSpec
  rw [jsSplitWs_trimmed (jsTrim text.data) (noWsHead_jsTrim _) (noWsHead_jsTrim_reverse _)]
  by_cases h : jsTrim text.data = []
  · rw [if_pos h, h]
    obtain ⟨k, hk⟩ := Nat.exists_eq_succ_of_ne_zero (Nat.pos_iff_ne_zero.mp hc)
    subst hk
    simp [wordsOf, splitWsP, chunkBy, chunkByF, joinSep]
  · rw [if_neg h]

theorem exceptOkDef (e : Except String String) :
    e.isOk = (match e with | .ok _ => true | .error _ => false) := by
  cases e <;> rfl

/-- C2: `wrapByWords(text, count)` fails with the invalid-argument error
exactly when `count ≤ 0`; for positive counts it trims the text, splits it
on whitespace runs into words, groups them into chunks of `count` words
(the last chunk may be shorter), joins chunk words with single spaces and
chunks with newlines; in particular
`wrapByWords "one two three four five" 2 = "one two\nthree four\nfive"`. -/
theorem wrapByWords_C2 :
    (∀ (text : String) (count : Int),
      (wrapByWords text count).isOk = decide (0 < count) ∧
      (0 < count → wrapByWords text count = .ok (wrapByWordsSpec text count.toNat))) ∧
    wrapByWords "one two three four five" 2 = .ok "one two\nthree four\nfive" := by
  constructor
  · intro text count
    constructor
    · unfold wrapByWords
      by_cases h : count ≤ 0
      · rw [if_pos h]
        simp [Except.isOk, Except.toBool]
        omega
      · rw [if_neg h]
        simp [Except.isOk, Except.toBool]
        omega
    · intro h
      unfold wrapByWords
      rw [if_neg (by omega)]
      rw [wrapByWordsRun_eq_spec]
      omega
  · rfl

/-- Witness for C2 at a concrete positive count. -/
theorem wrapByWords_C2_witness :
    wrapByWords "a b c" 2 = .ok (wrapByWordsSpec "a b c" 2) :=
  (wrapByWords_C2.1 "a b c" 2).2 (by decide)

/-! ### C3: character-budget wrapping -/

theorem dropWhile_eq_self_of_none {p : Char → Bool} :
    ∀ {l : List Char}, (∀ c ∈ l, p c = false) → l.dropWhile p = l := by
  intro l
  induction l with
  | nil => intro _; rfl
  | cons c r _ =>
    intro h
    have hc : p c = false := h c (by simp)
    rw [List.dropWhile_cons_of_neg (by simp [hc])]

theorem jsTrim_eq_self_of_noWs {w : List Char} (h : ∀ c ∈ w, jsWs c = false) :
    jsTrim w = w := by
  unfold jsTrim
  rw [dropWhile_eq_self_of_none h,
    dropWhile_eq_self_of_none (fun c hc => h c (List.mem_reverse.mp hc)), List.reverse_reverse]

theorem splitWsP_of_noWs : ∀ {w : List Char}, (∀ c ∈ w, jsWs c = false) →
    splitWsP w = [w] := by
  intro w
  induction w with
  | nil => intro _; rfl
  | cons c r ih =>
    intro h
    have hc : jsWs c = false := h c (by simp)
    show (if jsWs c then [] :: splitWsP r else (splitWsP r).modifyHead (c :: ·)) = _
    rw [if_neg (by simp [hc]), ih (fun x hx => h x (by simp [hx]))]
    rfl

/-- C3: `wrapByLength` (modelled from the spec, its source file being
absent from `src/`) performs greedy word-wrap: a word always goes onto an
empty line regardless of length, otherwise a space and the word are
appended unless that would push the line past the budget, in which case
the line is emitted and the word starts a new line.  The spec's example
evaluates as claimed, and a single word, however long, stands alone. -/
theorem wrapByLength_C3 :
    wrapByLength "This is a test sentence for wrapping." 10 =
      "This is a\ntest\nsentence\nfor\nwrapping." ∧
    (∀ (w : List Char) (L : Int), w ≠ [] → (∀ c ∈ w, jsWs c = false) →
      wrapByLength ⟨w⟩ L = ⟨w⟩) := by
  constructor
  · rfl
  · intro w L hne hnws
    unfold wrapByLength
    have hdata : (String.mk w).data = w := rfl
    rw [hdata, jsTrim_eq_self_of_noWs hnws]
    unfold wordsOf
    rw [splitWsP_of_noWs hnws]
    have hw : (List.filter (fun w => !w.isEmpty) [w]) = [w] := by
      cases w with
      | nil => exact absurd rfl hne
      | cons c r => simp [List.filter]
    rw [hw]
    show String.mk (joinSep ['\n'] (greedyGo L [w] [])) = _
    have : greedyGo L [w] [] = [w] := by
      show (if ([] : List Char) = [] then greedyGo L [] w
            else if ((0 : Int) + 1 + w.length > L) then [] :: greedyGo L [] w
            else greedyGo L [] ([] ++ ' ' :: w)) = [w]
      rw [if_pos rfl]
      show (if w = [] then [] else [w]) = [w]
      rw [if_neg hne]
    rw [this]
    rfl

/-- Witness for C3's single-word clause. -/
theorem wrapByLength_C3_witness :
    wrapByLength "longword" 3 = "longword" := by
  have := wrapByLength_C3.2 "longword".data 3 (by decide) (by decide)
  exact this

/-! ### C6: wrap dispatch in `textify` -/

theorem wrapByWordsRun_empty (k : Nat) : wrapByWordsRun "" k = "" := by
  cases k with
  | zero => rfl
  | succ m =>
    have h1 : chunkByF 1 (m + 1) [([] : List Char)] = [[[]]] := by
      show (([] : List Char) :: List.take m []) :: chunkByF 0 (m + 1) (List.drop m []) = [[[]]]
      rw [List.take_nil, List.drop_nil]
      rfl
    show String.mk (joinSep ['\n'] ((chunkByF 1 (m + 1) [[]]).map (joinSep [' ']))) = ""
    rw [h1]
    rfl

/-- C6: `textify` wraps only when a strictly positive directive is
supplied; a positive `wrapWords` invokes `wrapByWords` (so its result is
the `ok` value of that call) and `wrapLength` is then ignored; a positive
`wrapLength` alone invokes `wrapByLength`. -/
theorem textify_C6 (html : String) (pf : Bool) (ig : List String)
    (wl ww : Option Int) :
    (optPos ww = false → optPos wl = false →
      textify html pf ig wl ww = textify html pf ig none none) ∧
    (optPos ww = true →
      wrapByWords (textify html pf ig none none) (ww.getD 0) =
        .ok (textify html pf ig wl ww)) ∧
    (optPos ww = false → optPos wl = true →
      textify html pf ig wl ww =
        wrapByLength (textify html pf ig none none) (wl.getD 0)) := by
  have hgen : ∀ (wl' ww' : Option Int), textify html pf ig wl' ww' =
      if html = "" then ""
      else
        if optPos ww' then
          wrapByWordsRun
            (if pf then preserveFormat html ig else ⟨textifyStripL ig html.data⟩)
            (ww'.getD 0).toNat
        else if optPos wl' then
          wrapByLength
            (if pf then preserveFormat html ig else ⟨textifyStripL ig html.data⟩)
            (wl'.getD 0)
        else (if pf then preserveFormat html ig else ⟨textifyStripL ig html.data⟩) :=
    fun _ _ => rfl
  have hbase : textify html pf ig none none =
      if html = "" then ""
      else (if pf then preserveFormat html ig else ⟨textifyStripL ig html.data⟩) := by
    rw [hgen]
    by_cases hh : html = ""
    · rw [if_pos hh, if_pos hh]
    · rw [if_neg hh, if_neg hh]
      rfl
  refine ⟨fun hw hl => ?_, fun hw => ?_, fun hw hl => ?_⟩
  · rw [hgen wl ww, hbase]
    by_cases hh : html = ""
    · rw [if_pos hh, if_pos hh]
    · rw [if_neg hh, if_neg hh, hw, hl]
      simp
  · obtain ⟨n, hn, hpos⟩ : ∃ n, ww = some n ∧ 0 < n := by
      cases ww with
      | none => simp [optPos] at hw
      | some n => exact ⟨n, rfl, by simpa [optPos] using hw⟩
    subst hn
    have hne : ¬ (n ≤ 0) := by omega
    show wrapByWords (textify html pf ig none none) n =
      Except.ok (textify html pf ig wl (some n))
    unfold wrapByWords
    rw [if_neg hne]
    congr 1
    rw [hbase, hgen wl (some n)]
    by_cases hh : html = ""
    · rw [if_pos hh, if_pos hh]
      exact wrapByWordsRun_empty n.toNat
    · rw [if_neg hh, if_neg hh]
      have hop : optPos (some n) = true := by
        simp only [optPos, decide_eq_true_eq]
        omega
      rw [hop]
      simp
  · rw [hgen wl ww, hbase]
    by_cases hh : html = ""
    · rw [if_pos hh, if_pos hh]
      rfl
    · rw [if_neg hh, if_neg hh, hw, hl]
      simp

/-- Witness for C6 at concrete directives. -/
theorem textify_C6_witness :
    textify "<p>one two three four five</p>" true [] (some 10) (some 2) =
      textify "<p>one two three four five</p>" true [] (some 99) (some 2) := by
  have h1 := (textify_C6 "<p>one two three four five</p>" true [] (some 10) (some 2)).2.1
    (by decide)
  have h2 := (textify_C6 "<p>one two three four five</p>" true [] (some 99) (some 2)).2.1
    (by decide)
  exact Except.ok.inj (h1.symm.trans h2)

/-! ### C4: no run of three newlines in `preserveFormat` output -/

/-- Scan for a run of three consecutive newlines; `k` counts the newlines
immediately before the current position. -/
def hasRun3 : List Char → Nat → Bool
  | [], _ => false
  | c :: rest, k =>
    if c = '\n' then (if 2 ≤ k then true else hasRun3 rest (k + 1)) else hasRun3 rest 0

theorem hasRun3_cons_not {c : Char} {l : List Char} {k : Nat} (h : ¬ c = '\n') :
    hasRun3 (c :: l) k = hasRun3 l 0 := by
  simp [hasRun3, h]

theorem hasRun3_emitNl_cons (n : Nat) {c : Char} (l : List Char) (h : ¬ c = '\n') :
    hasRun3 (emitNl n ++ c :: l) 0 = hasRun3 l 0 := by
  by_cases h3 : 3 ≤ n
  · simp [emitNl, h3, hasRun3, h]
  · have : n = 0 ∨ n = 1 ∨ n = 2 := by omega
    rcases this with h0 | h0 | h0 <;> subst h0 <;> simp [emitNl, hasRun3, h]

theorem hasRun3_emitNl (n : Nat) : hasRun3 (emitNl n) 0 = false := by
  by_cases h3 : 3 ≤ n
  · simp [emitNl, h3, hasRun3]
  · have : n = 0 ∨ n = 1 ∨ n = 2 := by omega
    rcases this with h0 | h0 | h0 <;> subst h0 <;> simp [emitNl, hasRun3]

theorem hasRun3_collapseGo : ∀ (s : List Char) (n : Nat),
    hasRun3 (collapseGo s n) 0 = false := by
  intro s
  induction s with
  | nil => intro n; exact hasRun3_emitNl n
  | cons c rest ih =>
    intro n
    by_cases hc : c = '\n'
    · rw [show collapseGo (c :: rest) n = collapseGo rest (n + 1) by simp [collapseGo, hc]]
      exact ih (n + 1)
    · rw [show collapseGo (c :: rest) n = emitNl n ++ c :: collapseGo rest 0 by
        simp [collapseGo, hc]]
      rw [hasRun3_emitNl_cons n _ hc]
      exact ih 0

theorem hasRun3_of_run : ∀ (a b : List Char) (k : Nat),
    hasRun3 (a ++ '\n' :: '\n' :: '\n' :: b) k = true := by
  intro a
  induction a with
  | nil =>
    intro b k
    show hasRun3 ('\n' :: '\n' :: '\n' :: b) k = true
    by_cases h2 : 2 ≤ k
    · simp [hasRun3, h2]
    · by_cases h1 : 2 ≤ k + 1
      · simp [hasRun3, h2, h1]
      · simp [hasRun3, h2, h1, show 2 ≤ k + 2 by omega]
  | cons x a ih =>
    intro b k
    show hasRun3 (x :: (a ++ '\n' :: '\n' :: '\n' :: b)) k = true
    by_cases hx : x = '\n'
    · by_cases h2 : 2 ≤ k
      · simp [hasRun3, hx, h2]
      · simp [hasRun3, hx, h2, ih b (k + 1)]
    · simp [hasRun3, hx, ih b 0]

theorem not_infix_run_of_hasRun3 {l : List Char} (h : hasRun3 l 0 = false) :
    ¬ (['\n', '\n', '\n'] <:+: l) := by
  intro hinf
  obtain ⟨s, t, hst⟩ := hinf
  rw [← hst] at h
  have : s ++ ['\n', '\n', '\n'] ++ t = s ++ '\n' :: '\n' :: '\n' :: t := by simp
  rw [this, hasRun3_of_run s t 0] at h
  exact Bool.true_eq_false.mp h

theorem hasRun3_true_of_infix : ∀ (l : List Char),
    (['\n', '\n', '\n'] <:+: l) → hasRun3 l 0 = true := by
  intro l hinf
  obtain ⟨s, t, hst⟩ := hinf
  rw [← hst, show s ++ ['\n', '\n', '\n'] ++ t = s ++ '\n' :: '\n' :: '\n' :: t by simp]
  exact hasRun3_of_run s t 0

theorem hasRun3_infix_of_true_aux : ∀ (l : List Char) (k : Nat), hasRun3 l k = true →
    (['\n', '\n', '\n'] : List Char) <:+: (List.replicate k '\n' ++ l) := by
  intro l
  induction l with
  | nil => intro k h; exact absurd h (by simp [hasRun3])
  | cons c rest ih =>
    intro k h
    by_cases hc : c = '\n'
    · subst hc
      have hshift : List.replicate k '\n' ++ '\n' :: rest =
          List.replicate (k + 1) '\n' ++ rest := by
        rw [List.replicate_succ']
        simp
      rw [hshift]
      by_cases h2 : 2 ≤ k
      · -- the run is already complete at this position
        have hsplit : List.replicate (k + 1) '\n' =
            List.replicate 3 '\n' ++ List.replicate (k - 2) '\n' := by
          rw [← List.replicate_add]
          congr 1
          omega
        rw [hsplit]
        refine ⟨[], List.replicate (k - 2) '\n' ++ rest, ?_⟩
        simp
      · have hrest : hasRun3 rest (k + 1) = true := by
          rw [show hasRun3 ('\n' :: rest) k = hasRun3 rest (k + 1) by
            simp [hasRun3, h2]] at h
          exact h
        exact ih (k + 1) hrest
    · have hrest : hasRun3 rest 0 = true := by
        rw [hasRun3_cons_not hc] at h
        exact h
      have := ih 0 hrest
      simp only [List.replicate, List.nil_append] at this
      exact this.trans ⟨List.replicate k '\n' ++ [c], [], by simp⟩

theorem hasRun3_infix_of_true (l : List Char) (h : hasRun3 l 0 = true) :
    (['\n', '\n', '\n'] : List Char) <:+: l := by
  have := hasRun3_infix_of_true_aux l 0 h
  simpa using this

theorem hasRun3_jsTrim {x : List Char} (h : hasRun3 x 0 = false) :
    hasRun3 (jsTrim x) 0 = false := by
  by_cases htr : hasRun3 (jsTrim x) 0 = true
  · exfalso
    -- the trimmed list is an infix of the original
    have hsub : jsTrim x <:+: x := by
      have h1 : x.dropWhile jsWs <:+ x := suffix_dropWhile jsWs x
      have h2 : jsTrim x <+: x.dropWhile jsWs := by
        obtain ⟨t, ht⟩ := suffix_dropWhile jsWs (x.dropWhile jsWs).reverse
        refine ⟨t.reverse, ?_⟩
        have := congrArg List.reverse ht
        simpa [jsTrim] using this
      exact List.IsInfix.trans (List.IsPrefix.isInfix h2) (List.IsSuffix.isInfix h1)
    -- so a newline run in the trimmed list is a run in the original
    have : (['\n', '\n', '\n'] : List Char) <:+: x := by
      have hrun : (['\n', '\n', '\n'] : List Char) <:+: jsTrim x := by
        by_contra hno
        -- hasRun3 true means some position carries the run; derive the infix
        -- by scanning: we prove the contrapositive with `hasRun3_run_infix`
        exact hno (hasRun3_infix_of_true (jsTrim x) htr)
      exact hrun.trans hsub
    exact not_infix_run_of_hasRun3 h this
  · exact Bool.not_eq_true _ |>.mp htr

/-- C4: for every input and every ignore list, the string returned by
`preserveFormat` contains no run of three or more consecutive newline
characters: the run scanner `hasRun3` rejects it and, equivalently, the
three-newline list is not an infix of the output. -/
theorem preserveFormat_C4 (html : String) (ig : List String) :
    hasRun3 (preserveFormat html ig).data 0 = false ∧
    decide ((['\n', '\n', '\n'] : List Char) <:+: (preserveFormat html ig).data) = false := by
  have key : hasRun3 (preserveFormat html ig).data 0 = false := by
    unfold preserveFormat
    by_cases hh : html = ""
    · rw [if_pos hh]
      rfl
    · rw [if_neg hh]
      show hasRun3 (preserveFormatL ig html.data) 0 = false
      unfold preserveFormatL
      exact hasRun3_jsTrim (hasRun3_collapseGo _ 0)
  exact ⟨key, decide_eq_false (not_infix_run_of_hasRun3 key)⟩

/-! ### Character-case inversion lemmas -/

theorem lcC_eq_self_or (c : Char) : lcC c = c ∨
    lcC c ∈ (['a', 'b', 'c', 'd', 'e', 'f', 'g', 'h', 'i', 'j', 'k', 'l', 'm',
      'n', 'o', 'p', 'q', 'r', 's', 't', 'u', 'v', 'w', 'x', 'y', 'z'] : List Char) := by
  unfold lcC
  split <;> first | (left ; rfl) | (right ; decide)

theorem lcC_of_lower : ∀ d ∈ (['a', 'b', 'c', 'd', 'e', 'f', 'g', 'h', 'i', 'j',
    'k', 'l', 'm', 'n', 'o', 'p', 'q', 'r', 's', 't', 'u', 'v', 'w', 'x', 'y',
    'z'] : List Char), lcC d = d := by decide

theorem lcC_idem (c : Char) : lcC (lcC c) = lcC c := by
  rcases lcC_eq_self_or c with h | h
  · rw [h]
    exact h
  · exact lcC_of_lower (lcC c) h

theorem lcC_eq_lt {c : Char} (h : lcC c = '<') : c = '<' := by
  unfold lcC at h
  split at h <;> simp_all

theorem ciEqC_lt {c : Char} (h : ciEqC '<' c = true) : c = '<' := by
  have h2 : lcC '<' = lcC c := by simpa [ciEqC] using h
  exact lcC_eq_lt h2.symm

/-! ### C1: ignored tags are not byte-identical in the output -/

/-- C1 (refuting evaluation): with `ignoreTags = ["a"]`, the `<a>` tag is
preserved by the link pass and the generic stripper, but the entity pass —
which runs on the whole string after stripping — decodes the `&amp;`
inside the preserved tag's `href` attribute, so the tag occurrence in the
output of both `preserveFormat` and `textify` differs from its occurrence
in the input. -/
theorem preserveFormat_C1_code_bug :
    preserveFormat "<a href=\"x&amp;y\">t</a>" ["a"] = "<a href=\"x&y\">t</a>" ∧
    textify "<a href=\"x&amp;y\">t</a>" true ["a"] none none = "<a href=\"x&y\">t</a>" ∧
    ("<a href=\"x&y\">t</a>" == "<a href=\"x&amp;y\">t</a>") = false := by
  refine ⟨by decide, by decide, by decide⟩

/-! ### C9: behaviour on tag-free text -/

theorem runScan_id_of_fire_mem {σ : Type}
    {step : σ → List Char → Option (List Char × σ × List Char)} {st : σ}
    (hfire : ∀ (st' : σ) (s' : List Char) r, step st' s' = some r → '<' ∈ s')
    {s : List Char} (hs : '<' ∉ s) : runScan step st s = s := by
  apply runScan_id_of_none
  intro a b hab hb
  cases hstep : step st b with
  | none => rfl
  | some r =>
    exfalso
    apply hs
    rw [hab]
    exact List.mem_append.mpr (Or.inr (hfire st b r hstep))

theorem ciPre_lt_mem {p s : List Char} (h : ciPre? ('<' :: p) s = true) : '<' ∈ s := by
  cases s with
  | nil => simp [ciPre?] at h
  | cons c cs =>
    have h2 : ciEqC '<' c = true := by
      have h3 : (ciEqC '<' c && ciPre? p cs) = true := h
      exact (Bool.and_eq_true _ _ |>.mp h3).1
    rw [← ciEqC_lt h2]
    exact List.mem_cons_self _ _

theorem matchBr_mem {s : List Char} {r : List Char} (h : matchBr s = some r) :
    '<' ∈ s := by
  unfold matchBr at h
  split at h
  · simp
  · exact absurd h (by simp)

theorem matchHp_mem {s : List Char} {r} (h : matchHp s = some r) : '<' ∈ s := by
  unfold matchHp at h
  split at h
  · simp
  · exact absurd h (by simp)

theorem matchPairTag_mem {tag s : List Char} {r} (h : matchPairTag tag s = some r) :
    '<' ∈ s := by
  unfold matchPairTag at h
  split at h
  · next hc => exact ciPre_lt_mem hc
  · exact absurd h (by simp)

theorem matchLink_mem {s : List Char} {r} (h : matchLink s = some r) : '<' ∈ s := by
  unfold matchLink at h
  split at h
  · next hc => exact ciPre_lt_mem hc
  · exact absurd h (by simp)

theorem matchBlock_mem {opener closer s : List Char} {r} (p : List Char)
    (hop : opener = '<' :: p) (h : matchBlock opener closer s = some r) :
    '<' ∈ s := by
  unfold matchBlock at h
  split at h
  · next hc =>
    rw [hop] at hc
    exact ciPre_lt_mem hc
  · exact absurd h (by simp)

theorem matchStripPF_mem {s : List Char} {r} (h : matchStripPF s = some r) :
    '<' ∈ s := by
  unfold matchStripPF at h
  split at h
  · simp
  · simp
  · exact absurd h (by simp)

theorem matchStripAll_mem {s : List Char} {r} (h : matchStripAll s = some r) :
    '<' ∈ s := by
  unfold matchStripAll at h
  split at h
  · simp
  · exact absurd h (by simp)

theorem matchStripTx_mem {s : List Char} {r} (h : matchStripTx s = some r) :
    '<' ∈ s := by
  unfold matchStripTx at h
  split at h
  · simp
  · simp
  · exact absurd h (by simp)

theorem normStep_mem {st : Unit} {s : List Char} {r} (h : normStep st s = some r) :
    '<' ∈ s := by
  unfold normStep at h
  split at h
  · next rest =>
    split at h
    · exact absurd h (by simp)
    · split at h
      · next t hdrop =>
        have hmem : '<' ∈ rest.drop (rest.takeWhile jsWs).length := by
          rw [hdrop]
          simp
        have : '<' ∈ rest := (List.drop_suffix _ _).subset hmem
        simp [this]
      · exact absurd h (by simp)
  · exact absurd h (by simp)

theorem ofMap_mem {m : Option α} {f : α → List Char × Unit × List Char} {r}
    (h : m.map f = some r) : ∃ a, m = some a := by
  cases m with
  | none => simp at h
  | some a => exact ⟨a, rfl⟩

/-- Every rewrite pass of the pipeline leaves a `<`-free string unchanged. -/
theorem passes_id_of_no_lt {ig : List String} {s : List Char} (hs : '<' ∉ s) :
    runScan normStep () s = s ∧
    brPassTop ig s = s ∧
    runScan (hpStep ig) () s = s ∧
    (∀ t1 t2 mark, runScan (pairStep t1 t2 mark ig) () s = s) ∧
    linkPassTop ig s = s ∧
    runScan (olStep ig) () s = s ∧
    runScan (ulStep ig) () s = s ∧
    bqPassTop ig s = s ∧
    runScan (tableStep ig) () s = s ∧
    stripPassTop ig s = s := by
  refine ⟨?_, ?_, ?_, ?_, ?_, ?_, ?_, ?_, ?_, ?_⟩
  · exact runScan_id_of_fire_mem (fun st' s' r h => normStep_mem h) hs
  · unfold brPassTop
    split
    · rfl
    · exact runScan_id_of_fire_mem (fun st' s' r h => by
        obtain ⟨a, ha⟩ := ofMap_mem h
        exact matchBr_mem ha) hs
  · exact runScan_id_of_fire_mem (fun st' s' r h => by
      obtain ⟨a, ha⟩ := ofMap_mem h
      exact matchHp_mem ha) hs
  · intro t1 t2 mark
    apply runScan_id_of_fire_mem (fun st' s' r h => ?_) hs
    unfold pairStep at h
    split at h
    · next heq => exact matchPairTag_mem heq
    · split at h
      · next heq => exact matchPairTag_mem heq
      · exact absurd h (by simp)
  · unfold linkPassTop
    split
    · rfl
    · exact runScan_id_of_fire_mem (fun st' s' r h => by
        obtain ⟨a, ha⟩ := ofMap_mem h
        exact matchLink_mem ha) hs
  · exact runScan_id_of_fire_mem (fun st' s' r h => by
      obtain ⟨a, ha⟩ := ofMap_mem h
      exact matchBlock_mem "ol>".data rfl ha) hs
  · exact runScan_id_of_fire_mem (fun st' s' r h => by
      obtain ⟨a, ha⟩ := ofMap_mem h
      exact matchBlock_mem "ul>".data rfl ha) hs
  · unfold bqPassTop
    split
    · rfl
    · exact runScan_id_of_fire_mem (fun st' s' r h => by
        obtain ⟨a, ha⟩ := ofMap_mem h
        exact matchBlock_mem "blockquote>".data rfl ha) hs
  · exact runScan_id_of_fire_mem (fun st' s' r h => by
      obtain ⟨a, ha⟩ := ofMap_mem h
      exact matchBlock_mem "table>".data rfl ha) hs
  · unfold stripPassTop
    split
    · exact runScan_id_of_fire_mem (fun st' s' r h => by
        obtain ⟨a, ha⟩ := ofMap_mem h
        exact matchStripAll_mem ha) hs
    · exact runScan_id_of_fire_mem (fun st' s' r h => by
        obtain ⟨a, ha⟩ := ofMap_mem h
        exact matchStripPF_mem ha) hs

theorem ciPre_false_of_not_occurs {pat : List Char} :
    ∀ {a b : List Char}, ciOccurs pat (a ++ b) = false → b ≠ [] →
      ciPre? pat b = false := by
  intro a
  induction a with
  | nil =>
    intro b h hb
    cases b with
    | nil => exact absurd rfl hb
    | cons c cs =>
      have : (ciPre? pat (c :: cs) || ciOccurs pat cs) = false := h
      exact (Bool.or_eq_false_iff.mp this).1
  | cons x a ih =>
    intro b h hb
    have : (ciPre? pat (x :: (a ++ b)) || ciOccurs pat (a ++ b)) = false := h
    exact ih (Bool.or_eq_false_iff.mp this).2 hb

theorem replCI_id {pat rep s : List Char} (h : ciOccurs pat s = false) :
    replCI pat rep s = s := by
  apply runScan_id_of_none
  intro a b hab hb
  show (if ciPre? pat b then some (rep, (), b.drop pat.length) else none) = none
  rw [if_neg ?hc]
  case hc =>
    rw [hab] at h
    rw [ciPre_false_of_not_occurs h hb]
    simp

/-- Whether the text is free of the four decodable entity sequences
(case-insensitively). -/
def entityFree (s : List Char) : Bool :=
  !(ciOccurs "&nbsp;".data s || ciOccurs "&amp;".data s ||
    ciOccurs "&lt;".data s || ciOccurs "&gt;".data s)

theorem decodeEntities_id {s : List Char} (h : entityFree s = true) :
    decodeEntities s = s := by
  have h4 : ciOccurs "&nbsp;".data s = false ∧ ciOccurs "&amp;".data s = false ∧
      ciOccurs "&lt;".data s = false ∧ ciOccurs "&gt;".data s = false := by
    unfold entityFree at h
    simp only [Bool.not_eq_true'] at h
    have := Bool.or_eq_false_iff.mp h
    have h1 := Bool.or_eq_false_iff.mp this.1
    have h2 := Bool.or_eq_false_iff.mp h1.1
    exact ⟨h2.1, h2.2, h1.2, this.2⟩
  unfold decodeEntities
  rw [replCI_id h4.1, replCI_id h4.2.1, replCI_id h4.2.2.1, replCI_id h4.2.2.2]

/-- C9 (amended): on a text with no `<` character and no occurrence of the
four decodable entity sequences, `preserveFormat` is exactly the
newline-collapse followed by the trim; entity sequences in tag-free text
are, however, decoded (see the counterexample). -/
theorem preserveFormat_C9_amended (s : List Char) (ig : List String)
    (hlt : s.contains '<' = false) (hent : entityFree s = true) :
    preserveFormat ⟨s⟩ ig = ⟨jsTrim (collapseNl s)⟩ := by
  have hmem : '<' ∉ s := by
    intro hm
    have hfalse : List.elem '<' s = false := hlt
    rw [List.elem_eq_true_of_mem hm] at hfalse
    exact Bool.true_eq_false.mp hfalse
  by_cases hnil : s = []
  · subst hnil
    rfl
  · have hne : (⟨s⟩ : String) ≠ "" := by
      intro hcon
      exact hnil (congrArg String.data hcon)
    unfold preserveFormat
    rw [if_neg hne]
    show (⟨preserveFormatL ig s⟩ : String) = _
    unfold preserveFormatL
    obtain ⟨e1, e2, e3, e4, e5, e6, e7, e8, e9, e10⟩ :=
      @passes_id_of_no_lt ig s hmem
    rw [e1, e2, e3, e4, e4, e5, e6, e7, e8, e9, e10, decodeEntities_id hent]

/-- C9 (counterexample): on the tag-free text `a &amp; b` the claim fails:
`preserveFormat` decodes the entity, and the newline-collapse/trim clause
cannot account for the change. -/
theorem preserveFormat_C9_counterexample :
    preserveFormat "a &amp; b" [] = "a & b" ∧
    ("a & b" == "a &amp; b") = false ∧
    jsTrim (collapseNl "a &amp; b".data) = "a &amp; b".data := by
  refine ⟨by decide, by decide, by decide⟩

/-- Witness for the amended C9 on a concrete entity-free tag-free text. -/
theorem preserveFormat_C9_witness :
    preserveFormat "a  >  b\n\n\n\nc" [] = ⟨jsTrim (collapseNl "a  >  b\n\n\n\nc".data)⟩ :=
  preserveFormat_C9_amended "a  >  b\n\n\n\nc".data [] (by decide) (by decide)

/-! ### C10: case-sensitivity of the ignore entries -/

theorem ne_of_not_lower {e x : String} (he : (lcStr e == e) = false)
    (hx : lcStr x = x) : e ≠ x := by
  intro hcon
  subst hcon
  rw [hx] at he
  simp at he

theorem singleton_contains_false {e x : String} (he : (lcStr e == e) = false)
    (hx : lcStr x = x) : [e].contains x = false := by
  have hne : x ≠ e := fun hcon => (ne_of_not_lower he hx) hcon.symm
  have hbeq : (x == e) = false := beq_eq_false_iff_ne.mpr hne
  simp [List.contains, List.elem, hbeq]

theorem lcStr_idem (x : String) : lcStr (lcStr x) = lcStr x := by
  unfold lcStr lcL
  congr 1
  rw [List.map_map]
  exact List.map_congr_left fun c _ => lcC_idem c

theorem matchStripPFAux_name {s r1 : List Char} {k : Nat} {sp nm rest : List Char}
    (h : matchStripPFAux s k r1 = some (sp, nm, rest)) :
    nm = lcL (r1.takeWhile pfClass) := by
  unfold matchStripPFAux at h
  split at h
  · exact absurd h (by simp)
  · split at h
    · simp only [Option.some.injEq, Prod.mk.injEq] at h
      exact h.2.1.symm
    · exact absurd h (by simp)

theorem matchStripPF_name {s : List Char} {sp nm rest : List Char}
    (h : matchStripPF s = some (sp, nm, rest)) : ∃ nm0, nm = lcL nm0 := by
  unfold matchStripPF at h
  split at h
  · exact ⟨_, matchStripPFAux_name h⟩
  · exact ⟨_, matchStripPFAux_name h⟩
  · exact absurd h (by simp)

/-- C10: `preserveFormat` compares ignore entries case-sensitively — a
non-lowercase entry never matches any membership test (the br pass still
converts, the bold pass still rewrites, the generic strip still removes) —
whereas `textify`'s strip mode lower-cases the caller's entries first, so
non-lowercase entries are effective there. -/
theorem ignoreCase_C10 :
    (∀ (e : String) (s : List Char), (lcStr e == e) = false →
      brPassTop [e] s = brAll s ∧
      runScan (pairStep ['b'] "strong".data "**".data [e]) () s =
        runScan (pairStep ['b'] "strong".data "**".data []) () s ∧
      runScan (stripPFStep [e]) () s = runScan (stripPFStep []) () s) ∧
    (∀ (ig : List String) (s : List Char),
      textifyStripL ig s = textifyStripL (ig.map lcStr) s) ∧
    preserveFormat "x<b>y</b>" ["B"] = "x**y**" ∧
    preserveFormat "x<b>y</b>" ["b"] = "x<b>y</b>" ∧
    textify "x<b>y</b>" false ["B"] none none = "x<b>y</b>" ∧
    textify "x<b>y</b>" false ["b"] none none = "x<b>y</b>" := by
  refine ⟨?_, ?_, by decide, by decide, by decide, by decide⟩
  · intro e s he
    refine ⟨?_, ?_, ?_⟩
    · unfold brPassTop
      rw [singleton_contains_false he (by decide)]
      show brAll s = brAll s
      rfl
    · have hstep : pairStep ['b'] "strong".data "**".data [e] =
          pairStep ['b'] "strong".data "**".data [] := by
        funext st s'
        unfold pairStep
        cases h1 : matchPairTag ['b'] s' with
        | some x =>
          obtain ⟨sp, content, rest⟩ := x
          simp only
          rw [singleton_contains_false he (by decide)]
          rfl
        | none =>
          simp only
          cases h2 : matchPairTag "strong".data s' with
          | some x =>
            obtain ⟨sp, content, rest⟩ := x
            simp only
            rw [singleton_contains_false he (by decide)]
            rfl
          | none => rfl
      rw [hstep]
    · have hstep : stripPFStep [e] = stripPFStep [] := by
        funext st s'
        unfold stripPFStep
        cases h1 : matchStripPF s' with
        | none => rfl
        | some x =>
          obtain ⟨sp, nm, rest⟩ := x
          simp only [Option.map_some']
          obtain ⟨nm0, hnm0⟩ := matchStripPF_name h1
          have hfix : lcStr ⟨nm⟩ = ⟨nm⟩ := by
            subst hnm0
            show (⟨lcL (lcL nm0)⟩ : String) = ⟨lcL nm0⟩
            congr 1
            unfold lcL
            rw [List.map_map]
            exact List.map_congr_left fun c _ => lcC_idem c
          rw [singleton_contains_false he hfix]
          rfl
      rw [hstep]
  · intro ig s
    unfold textifyStripL
    by_cases hig : ig = []
    · subst hig
      rfl
    · rw [if_neg hig, if_neg (by simpa using hig)]
      have : (ig.map lcStr).map lcStr = ig.map lcStr := by
        rw [List.map_map]
        exact List.map_congr_left fun x _ => lcStr_idem x
      rw [this]

/-- Witness for C10 at the concrete entry `"BR"`. -/
theorem ignoreCase_C10_witness :
    brPassTop ["BR"] "a<br>b".data = brAll "a<br>b".data :=
  (ignoreCase_C10.1 "BR" "a<br>b".data (by decide)).1

/-! ### Shared machinery for locating matches in structured strings -/

theorem ciEqC_refl (c : Char) : ciEqC c c = true := by
  simp [ciEqC]

theorem ciPre_self_append : ∀ (pat r : List Char), ciPre? pat (pat ++ r) = true := by
  intro pat
  induction pat with
  | nil => intro r; rfl
  | cons p ps ih =>
    intro r
    show (ciEqC p p && ciPre? ps (ps ++ r)) = true
    rw [ciEqC_refl, ih]
    rfl

theorem ciEqC_lt_false {c : Char} (h : c ≠ '<') : ciEqC '<' c = false := by
  cases hb : ciEqC '<' c with
  | true => exact absurd (ciEqC_lt hb) h
  | false => rfl

/-- A case-insensitive mismatch between the pattern and the fragment
occurs within the fragment's own characters: then no continuation can
make the pattern match at this position. -/
def ciMismatch : List Char → List Char → Bool
  | _, [] => false
  | [], _ :: _ => false
  | p :: ps, c :: cs => !(ciEqC p c) || ciMismatch ps cs

theorem ciPre_false_of_mismatch : ∀ {pat b : List Char}, ciMismatch pat b = true →
    ∀ r, ciPre? pat (b ++ r) = false := by
  intro pat
  induction pat with
  | nil => intro b h r; cases b <;> simp [ciMismatch] at h
  | cons p ps ih =>
    intro b h r
    cases b with
    | nil => simp [ciMismatch] at h
    | cons c cs =>
      have h2 : (!(ciEqC p c) || ciMismatch ps cs) = true := h
      refine Bool.eq_false_iff.mpr fun h3 => ?_
      have h3' : (ciEqC p c && ciPre? ps (cs ++ r)) = true := h3
      obtain ⟨he, hp⟩ := Bool.and_eq_true _ _ |>.mp h3'
      rcases Bool.or_eq_true _ _ |>.mp h2 with hcase | hcase
      · rw [he] at hcase
        simp at hcase
      · rw [ih hcase r] at hp
        exact Bool.false_ne_true hp

/-- Every nonempty suffix of `seg` carries a mismatch against `pat`
within `seg` itself: decidable, and sufficient for `NoStartIn`. -/
def allSuffixMismatch (pat : List Char) : List Char → Bool
  | [] => true
  | c :: cs => ciMismatch pat (c :: cs) && allSuffixMismatch pat cs

/-- No position strictly inside `seg` can start a case-insensitive match
of `pat`, whatever follows `seg`. -/
def NoStartIn (pat seg : List Char) : Prop :=
  ∀ a b r, seg = a ++ b → b ≠ [] → ciPre? pat (b ++ r) = false

theorem noStartIn_of_mismatch {pat seg : List Char}
    (h : allSuffixMismatch pat seg = true) : NoStartIn pat seg := by
  induction seg with
  | nil =>
    intro a b r hab hb
    exact absurd (List.append_eq_nil.mp hab.symm).2 hb
  | cons c cs ih =>
    intro a b r hab hb
    have h2 : (ciMismatch pat (c :: cs) && allSuffixMismatch pat cs) = true := h
    obtain ⟨hm, hrest⟩ := Bool.and_eq_true _ _ |>.mp h2
    cases a with
    | nil =>
      have : b = c :: cs := by simpa using hab.symm
      subst this
      exact ciPre_false_of_mismatch hm r
    | cons x a' =>
      have hx : x = c ∧ cs = a' ++ b := by
        have := hab
        simp at this
        exact ⟨this.1.symm, this.2⟩
      exact ih hrest a' b r hx.2 hb

theorem noStartIn_append {pat x y : List Char} (hx : NoStartIn pat x)
    (hy : NoStartIn pat y) : NoStartIn pat (x ++ y) := by
  intro a b r hab hb
  rcases List.append_eq_append_iff.mp hab.symm with ⟨a', ha1, ha2⟩ | ⟨c', hc1, hc2⟩
  · -- the split point is inside `x` (or exactly at the boundary)
    cases a' with
    | nil =>
      have hby : b = y := by simpa using ha2
      subst hby
      exact hy [] b r rfl hb
    | cons z zs =>
      have : ciPre? pat ((z :: zs) ++ (y ++ r)) = false :=
        hx a (z :: zs) (y ++ r) ha1 (by simp)
      rw [ha2]
      simpa using this
  · exact hy c' b r hc2 hb

theorem noStartIn_of_no_lt {p seg : List Char} (h : ∀ c ∈ seg, c ≠ '<') :
    NoStartIn ('<' :: p) seg := by
  intro a b r hab hb
  cases b with
  | nil => exact absurd rfl hb
  | cons c cs =>
    have hc : c ≠ '<' := h c (by rw [hab]; simp)
    show (ciEqC '<' c && ciPre? p (cs ++ r)) = false
    rw [ciEqC_lt_false hc]
    rfl

theorem findCIDotAll_append {pat : List Char} :
    ∀ {pre r : List Char}, NoStartIn pat pre → ciPre? pat r = true →
      findCIDotAll pat (pre ++ r) = some pre.length := by
  intro pre
  induction pre with
  | nil =>
    intro r _ hr
    cases r with
    | nil => simp [findCIDotAll, hr]
    | cons c cs => simp [findCIDotAll, hr]
  | cons c cs ih =>
    intro r hno hr
    have hfail : ciPre? pat ((c :: cs) ++ r) = false := hno [] (c :: cs) r rfl (by simp)
    show findCIDotAll pat (c :: (cs ++ r)) = some (cs.length + 1)
    rw [show findCIDotAll pat (c :: (cs ++ r)) =
        if ciPre? pat (c :: (cs ++ r)) then some 0
        else (findCIDotAll pat (cs ++ r)).map (· + 1) from rfl]
    rw [show ciPre? pat (c :: (cs ++ r)) = false from hfail, if_neg (by simp)]
    rw [ih (fun a b rr hab hb => hno (c :: a) b rr (by simp [hab]) hb) hr]
    rfl

theorem findCINoNl_append {pat : List Char} :
    ∀ {pre r : List Char}, NoStartIn pat pre → (∀ c ∈ pre, jsLineTerm c = false) →
      ciPre? pat r = true → findCINoNl pat (pre ++ r) = some pre.length := by
  intro pre
  induction pre with
  | nil =>
    intro r _ _ hr
    cases r with
    | nil => simp [findCINoNl, hr]
    | cons c cs => simp [findCINoNl, hr]
  | cons c cs ih =>
    intro r hno hnl hr
    have hfail : ciPre? pat ((c :: cs) ++ r) = false := hno [] (c :: cs) r rfl (by simp)
    show findCINoNl pat (c :: (cs ++ r)) = some (cs.length + 1)
    rw [show findCINoNl pat (c :: (cs ++ r)) =
        if ciPre? pat (c :: (cs ++ r)) then some 0
        else if jsLineTerm c then none
        else (findCINoNl pat (cs ++ r)).map (· + 1) from rfl]
    rw [show ciPre? pat (c :: (cs ++ r)) = false from hfail, if_neg (by simp),
      if_neg (by simp [hnl c (by simp)])]
    rw [ih (fun a b rr hab hb => hno (c :: a) b rr (by simp [hab]) hb)
      (fun x hx => hnl x (by simp [hx])) hr]
    rfl

theorem findCh_append {ch : Char} :
    ∀ {pre r : List Char}, (∀ c ∈ pre, c ≠ ch) →
      findCh ch (pre ++ ch :: r) = some pre.length := by
  intro pre
  induction pre with
  | nil => intro r _; simp [findCh]
  | cons c cs ih =>
    intro r h
    show findCh ch (c :: (cs ++ ch :: r)) = some (cs.length + 1)
    rw [show findCh ch (c :: (cs ++ ch :: r)) =
        if c = ch then some 0 else (findCh ch (cs ++ ch :: r)).map (· + 1) from rfl]
    rw [if_neg (h c (by simp))]
    rw [ih (fun x hx => h x (by simp [hx]))]
    rfl

theorem takeWhile_append_all {p : Char → Bool} :
    ∀ {x y : List Char}, (∀ c ∈ x, p c = true) →
      (x ++ y).takeWhile p = x ++ y.takeWhile p := by
  intro x
  induction x with
  | nil => intro y _; rfl
  | cons c cs ih =>
    intro y h
    rw [List.cons_append, List.takeWhile_cons_of_pos (h c (by simp)),
      ih (fun x hx => h x (by simp [hx]))]
    rfl

theorem length_lt_of_drop {s rest : List Char} {k : Nat} (hk : 0 < k)
    (hs : s ≠ []) (hrest : rest = s.drop k) : rest.length < s.length := by
  subst hrest
  rw [List.length_drop]
  have : 0 < s.length := List.length_pos.mpr hs
  omega

/-- The block matcher at a correctly delimited block: the lazy close
search stops exactly at the block's own closer. -/
theorem matchBlock_at {opener closer inner rest : List Char}
    (hno : NoStartIn closer inner) :
    matchBlock opener closer (opener ++ inner ++ closer ++ rest) =
      some (opener ++ inner ++ closer, inner, rest) := by
  unfold matchBlock
  have hpre : ciPre? opener (opener ++ inner ++ closer ++ rest) = true := by
    have := ciPre_self_append opener (inner ++ closer ++ rest)
    simpa using this
  rw [if_pos hpre]
  have hbody : (opener ++ inner ++ closer ++ rest).drop opener.length =
      inner ++ (closer ++ rest) := by
    have : opener ++ inner ++ closer ++ rest = opener ++ (inner ++ (closer ++ rest)) := by
      simp
    rw [this, List.drop_left]
  have hfind : findCIDotAll closer (inner ++ (closer ++ rest)) = some inner.length :=
    findCIDotAll_append hno (ciPre_self_append closer rest)
  rw [hbody]
  simp only [hfind]
  have htake : (opener ++ inner ++ closer ++ rest).take
      (opener.length + inner.length + closer.length) =
      opener ++ inner ++ closer := by
    rw [show opener ++ inner ++ closer ++ rest =
        (opener ++ inner ++ closer) ++ rest by simp]
    rw [show opener.length + inner.length + closer.length =
        (opener ++ inner ++ closer).length by simp [Nat.add_assoc]]
    exact List.take_left _ _
  have hdrop : (inner ++ (closer ++ rest)).drop (inner.length + closer.length) =
      rest := by
    rw [show inner ++ (closer ++ rest) = (inner ++ closer) ++ rest by simp]
    rw [show inner.length + closer.length = (inner ++ closer).length by simp]
    exact List.drop_left _ _
  have htake2 : (inner ++ (closer ++ rest)).take inner.length = inner :=
    List.take_left _ _
  rw [htake, hdrop, htake2]

theorem matchBlock_rest {opener closer s sp c rest : List Char} (hop : opener ≠ [])
    (h : matchBlock opener closer s = some (sp, c, rest)) :
    rest.length < s.length := by
  unfold matchBlock at h
  split at h
  · next hpre =>
    split at h
    · next n heq =>
      simp only [Option.some.injEq, Prod.mk.injEq] at h
      have hr : rest = (s.drop opener.length).drop (n + closer.length) := h.2.2.symm
      rw [List.drop_drop] at hr
      refine length_lt_of_drop ?_ ?_ hr
      · have : 0 < opener.length := List.length_pos.mpr hop
        omega
      · intro hs
        subst hs
        cases opener with
        | nil => exact hop rfl
        | cons p ps => simp [ciPre?] at hpre
    · exact absurd h (by simp)
  · exact absurd h (by simp)

/-! ### C8: the blockquote pass -/

theorem bqStep_shrinks : StepShrinks bqStep := by
  intro st s out st2 rest h
  unfold bqStep at h
  cases hm : matchBlock "<blockquote>".data "</blockquote>".data s with
  | none =>
    rw [hm] at h
    simp at h
  | some x =>
    obtain ⟨sp, content, r⟩ := x
    rw [hm] at h
    simp only [Option.map_some', Option.some.injEq, Prod.mk.injEq] at h
    have hr : r = rest := h.2.2
    subst hr
    exact matchBlock_rest (by decide) hm

/-- C8 (amended): unless `blockquote` is ignored, each block is rewritten
by converting inner `<br>` to newlines, trimming, splitting into lines,
prefixing EVERY line (including empty ones) with `> ` after trimming it,
and rejoining with newlines; when `blockquote` is ignored the pass leaves
the whole string untouched, and the inner `<br>` conversion is the global
`<br>` pass's work, so it happens only when `br` is not ignored. -/
theorem bq_C8_amended :
    (∀ (content rest : List Char),
      allSuffixMismatch "</blockquote>".data content = true →
      runScan bqStep () ("<blockquote>".data ++ content ++ "</blockquote>".data ++ rest) =
        bqTransform content ++ runScan bqStep () rest) ∧
    (∀ content : List Char, bqTransform content =
      joinSep ['\n'] ((splitNl (jsTrim (brAll content))).map fun line =>
        '>' :: ' ' :: jsTrim line)) ∧
    (∀ (ig : List String) (s : List Char), ig.contains "blockquote" = true →
      bqPassTop ig s = s) ∧
    (∀ (ig : List String) (s : List Char), ig.contains "br" = true →
      brPassTop ig s = s) ∧
    preserveFormat "<blockquote>a<br><br>b</blockquote>" [] = "> a\n> \n> b" ∧
    preserveFormat "<blockquote>a<br>b</blockquote>" ["blockquote"] =
      "<blockquote>a\nb</blockquote>" ∧
    preserveFormat "<blockquote>a<br>b</blockquote>" ["blockquote", "br"] =
      "<blockquote>a<br>b</blockquote>" := by
  refine ⟨?_, fun _ => rfl, ?_, ?_, by decide, by decide, by decide⟩
  · intro content rest hm
    have hmatch : matchBlock "<blockquote>".data "</blockquote>".data
        ("<blockquote>".data ++ content ++ "</blockquote>".data ++ rest) =
        some ("<blockquote>".data ++ content ++ "</blockquote>".data, content, rest) :=
      matchBlock_at (noStartIn_of_mismatch hm)
    have hstep : bqStep () ("<blockquote>".data ++ content ++ "</blockquote>".data ++ rest) =
        some (bqTransform content, (), rest) := by
      unfold bqStep
      rw [hmatch]
      rfl
    rw [runScan_match bqStep_shrinks hstep]
  · intro ig s h
    unfold bqPassTop
    rw [h]
    simp
  · intro ig s h
    unfold brPassTop
    rw [h]
    simp

/-- C8 (counterexample): the code prefixes the interior empty line
(`> ` instead of leaving it empty), and with both `blockquote` and `br`
ignored the inner `<br>` is not converted. -/
theorem bq_C8_counterexample :
    preserveFormat "<blockquote>a<br><br>b</blockquote>" [] = "> a\n> \n> b" ∧
    ("> a\n> \n> b" == "> a\n\n> b") = false ∧
    preserveFormat "<blockquote>a<br>b</blockquote>" ["blockquote", "br"] =
      "<blockquote>a<br>b</blockquote>" ∧
    ("<blockquote>a<br>b</blockquote>" == "<blockquote>a\nb</blockquote>") = false := by
  refine ⟨by decide, by decide, by decide, by decide⟩

/-- Witness for the amended C8 at a concrete blockquote body. -/
theorem bq_C8_witness :
    runScan bqStep () ("<blockquote>".data ++ "x<br>y".data ++ "</blockquote>".data ++ []) =
      bqTransform "x<br>y".data ++ runScan bqStep () [] :=
  bq_C8_amended.1 "x<br>y".data [] (by decide)

/-! ### C7: ordered lists -/

/-- Render a list of item bodies as adjacent `<li>...</li>` elements. -/
def renderItems (items : List (List Char)) : List Char :=
  (items.map fun it => "<li>".data ++ it ++ "</li>".data).flatten

/-- Render a list of blocks, each a list of item bodies, as adjacent
`<ol>...</ol>` blocks. -/
def renderBlocks (blocks : List (List (List Char))) : List Char :=
  (blocks.map fun items => "<ol>".data ++ renderItems items ++ "</ol>".data).flatten

/-- The converted form of a block's items, numbered from `n`. -/
def numberFrom (n : Nat) : List (List Char) → List Char
  | [] => []
  | it :: its => ((Nat.repr n).data ++ '.' :: ' ' :: (it ++ ['\n'])) ++ numberFrom (n + 1) its

/-- Well-formed item bodies: no `<` (no nested markup) and no line
terminator (the `li` pattern has no `s` flag, so its `.` matches none of
LF, CR, U+2028, U+2029). -/
def wfItems (items : List (List Char)) : Bool :=
  items.all fun it => it.all fun c => !(c == '<') && !(jsLineTerm c)

/-- Well-formed blocks. -/
def wfBlocks (blocks : List (List (List Char))) : Bool := blocks.all wfItems

theorem matchLi_at {it rest : List Char}
    (h : ∀ c ∈ it, c ≠ '<' ∧ jsLineTerm c = false) :
    matchLi ("<li>".data ++ it ++ "</li>".data ++ rest) =
      some ("<li>".data ++ it ++ "</li>".data, it, rest) := by
  unfold matchLi
  have hpre : ciPre? ['<', 'l', 'i', '>'] ("<li>".data ++ it ++ "</li>".data ++ rest) = true := by
    have h2 : ciPre? "<li>".data ("<li>".data ++ (it ++ ("</li>".data ++ rest))) = true :=
      ciPre_self_append "<li>".data _
    have h3 : "<li>".data ++ it ++ "</li>".data ++ rest =
        "<li>".data ++ (it ++ ("</li>".data ++ rest)) := by simp
    rw [h3]
    exact h2
  rw [if_pos hpre]
  have hdrop4 : ("<li>".data ++ it ++ "</li>".data ++ rest).drop 4 =
      it ++ ("</li>".data ++ rest) := by
    rw [show "<li>".data ++ it ++ "</li>".data ++ rest =
        "<li>".data ++ (it ++ ("</li>".data ++ rest)) by simp]
    exact List.drop_left "<li>".data _
  have hno : NoStartIn "</li>".data it := by
    have : NoStartIn ('<' :: "/li>".data) it :=
      noStartIn_of_no_lt (fun c hc => (h c hc).1)
    exact this
  have hfind : findCINoNl "</li>".data (it ++ ("</li>".data ++ rest)) = some it.length :=
    findCINoNl_append hno (fun c hc => (h c hc).2) (ciPre_self_append "</li>".data rest)
  rw [hdrop4]
  simp only [hfind]
  have htake : ("<li>".data ++ it ++ "</li>".data ++ rest).take (4 + it.length + 5) =
      "<li>".data ++ it ++ "</li>".data := by
    rw [show "<li>".data ++ it ++ "</li>".data ++ rest =
        ("<li>".data ++ it ++ "</li>".data) ++ rest by simp]
    rw [show 4 + it.length + 5 = ("<li>".data ++ it ++ "</li>".data).length by
      simp [Nat.add_comm, Nat.add_assoc, Nat.add_left_comm]]
    exact List.take_left _ _
  have htake2 : (it ++ ("</li>".data ++ rest)).take it.length = it :=
    List.take_left _ _
  have hdrop2 : (it ++ ("</li>".data ++ rest)).drop (it.length + 5) = rest := by
    rw [show it ++ ("</li>".data ++ rest) = (it ++ "</li>".data) ++ rest by simp]
    rw [show it.length + 5 = (it ++ "</li>".data).length by simp]
    exact List.drop_left _ _
  rw [htake, htake2, hdrop2]

theorem matchLi_rest {s sp c rest : List Char} (h : matchLi s = some (sp, c, rest)) :
    rest.length < s.length := by
  unfold matchLi at h
  split at h
  · next hpre =>
    split at h
    · next n heq =>
      simp only [Option.some.injEq, Prod.mk.injEq] at h
      have hr : rest = (s.drop 4).drop (n + 5) := h.2.2.symm
      rw [List.drop_drop] at hr
      refine length_lt_of_drop (by omega) ?_ hr
      intro hs
      subst hs
      simp [ciPre?] at hpre
    · exact absurd h (by simp)
  · exact absurd h (by simp)

theorem liOlStep_shrinks (ig : List String) : StepShrinks (liOlStep ig) := by
  intro st s out st2 rest h
  unfold liOlStep at h
  cases hm : matchLi s with
  | none =>
    rw [hm] at h
    simp at h
  | some x =>
    obtain ⟨sp, content, r⟩ := x
    rw [hm] at h
    simp only [Option.map_some', Option.some.injEq] at h
    have hr : r = rest := by
      split at h <;> simp only [Prod.mk.injEq] at h <;> exact h.2.2
    subst hr
    exact matchLi_rest hm

theorem olStep_shrinks (ig : List String) : StepShrinks (olStep ig) := by
  intro st s out st2 rest h
  unfold olStep at h
  cases hm : matchBlock "<ol>".data "</ol>".data s with
  | none =>
    rw [hm] at h
    simp at h
  | some x =>
    obtain ⟨sp, content, r⟩ := x
    rw [hm] at h
    simp only [Option.map_some', Option.some.injEq, Prod.mk.injEq] at h
    have hr : r = rest := h.2.2
    subst hr
    exact matchBlock_rest (by decide) hm

theorem matchBlock_span {opener closer s sp c rest : List Char}
    (h : matchBlock opener closer s = some (sp, c, rest)) : s = sp ++ rest := by
  unfold matchBlock at h
  split at h
  · split at h
    · next n heq =>
      simp only [Option.some.injEq, Prod.mk.injEq] at h
      have h1 : sp = s.take (opener.length + n + closer.length) := h.1.symm
      have h3 : rest = (s.drop opener.length).drop (n + closer.length) := h.2.2.symm
      rw [List.drop_drop] at h3
      rw [h1, h3, show opener.length + (n + closer.length) =
        opener.length + n + closer.length from by omega, List.take_append_drop]
    · exact absurd h (by simp)
  · exact absurd h (by simp)

/-- The inner list-item scan of an `<ol>` block converts the items in
sequence, numbering from the incoming counter plus one. -/
theorem liScan_render {ig : List String} (hli : ig.contains "li" = false) :
    ∀ (items : List (List Char)) (n : Nat), wfItems items = true →
      runScan (liOlStep ig) n (renderItems items) = numberFrom (n + 1) items := by
  intro items
  induction items with
  | nil => intro n _; rfl
  | cons it its ih =>
    intro n hwf
    obtain ⟨hit, hits⟩ : (it.all fun c => !(c == '<') && !(jsLineTerm c)) = true ∧
        wfItems its = true := by
      simpa [wfItems] using hwf
    have hchars : ∀ c ∈ it, c ≠ '<' ∧ jsLineTerm c = false := by
      intro c hc
      have := List.all_eq_true.mp hit c hc
      simp at this
      exact this
    have hrender : renderItems (it :: its) =
        "<li>".data ++ it ++ "</li>".data ++ renderItems its := by
      simp [renderItems]
    have hstep : liOlStep ig n ("<li>".data ++ it ++ "</li>".data ++ renderItems its) =
        some ((Nat.repr (n + 1)).data ++ '.' :: ' ' :: (it ++ ['\n']), n + 1,
          renderItems its) := by
      unfold liOlStep
      rw [matchLi_at hchars]
      simp only [Option.map_some']
      rw [hli]
      simp
    rw [hrender, runScan_match (liOlStep_shrinks ig) hstep, ih (n + 1) hits]
    rfl

theorem noStart_renderItems {items : List (List Char)} (hwf : wfItems items = true) :
    NoStartIn "</ol>".data (renderItems items) := by
  induction items with
  | nil =>
    intro a b r hab hb
    exact absurd (List.append_eq_nil.mp hab.symm).2 hb
  | cons it its ih =>
    obtain ⟨hit, hits⟩ : (it.all fun c => !(c == '<') && !(jsLineTerm c)) = true ∧
        wfItems its = true := by
      simpa [wfItems] using hwf
    have hchars : ∀ c ∈ it, c ≠ '<' := by
      intro c hc
      have := List.all_eq_true.mp hit c hc
      simp at this
      exact this.1
    have hseg : renderItems (it :: its) =
        "<li>".data ++ (it ++ ("</li>".data ++ renderItems its)) := by
      simp [renderItems]
    rw [hseg]
    refine noStartIn_append (noStartIn_of_mismatch (by decide)) ?_
    refine noStartIn_append ?_ ?_
    · exact noStartIn_of_no_lt hchars
    · exact noStartIn_append (noStartIn_of_mismatch (by decide)) (ih hits)

/-- The ordered-list pass over adjacent blocks: every block is converted
independently with its numbering restarted at one. -/
theorem olScan_render {ig : List String} (hol : ig.contains "ol" = false)
    (hli : ig.contains "li" = false) :
    ∀ blocks : List (List (List Char)), wfBlocks blocks = true →
      runScan (olStep ig) () (renderBlocks blocks) =
        (blocks.map fun items => numberFrom 1 items).flatten := by
  intro blocks
  induction blocks with
  | nil => intro _; rfl
  | cons items blocks ih =>
    intro hwf
    obtain ⟨hitems, hblocks⟩ : wfItems items = true ∧ wfBlocks blocks = true := by
      simpa [wfBlocks] using hwf
    have hrender : renderBlocks (items :: blocks) =
        "<ol>".data ++ renderItems items ++ "</ol>".data ++ renderBlocks blocks := by
      simp [renderBlocks]
    have hmatch : matchBlock "<ol>".data "</ol>".data
        ("<ol>".data ++ renderItems items ++ "</ol>".data ++ renderBlocks blocks) =
        some ("<ol>".data ++ renderItems items ++ "</ol>".data, renderItems items,
          renderBlocks blocks) :=
      matchBlock_at (noStart_renderItems hitems)
    have hstep : olStep ig ()
        ("<ol>".data ++ renderItems items ++ "</ol>".data ++ renderBlocks blocks) =
        some (runScan (liOlStep ig) 0 (renderItems items), (), renderBlocks blocks) := by
      unfold olStep
      rw [hmatch]
      simp only [Option.map_some']
      rw [hol]
      simp
    rw [hrender, runScan_match (olStep_shrinks ig) hstep, ih hblocks,
      liScan_render hli items 0 hitems]
    rfl

/-- C7: when `ol` is not ignored (and `li` is not ignored), every
`<li>...</li>` item of every `<ol>...</ol>` block becomes `N. ` followed
by its content and a newline, with the 1-based counter restarted for each
block; when `ol` is ignored the pass leaves the whole string — and hence
every block with its inner items — untouched, whatever `li`'s status. -/
theorem ol_C7 :
    (∀ (blocks : List (List (List Char))) (ig : List String),
      wfBlocks blocks = true → ig.contains "ol" = false → ig.contains "li" = false →
      runScan (olStep ig) () (renderBlocks blocks) =
        (blocks.map fun items => numberFrom 1 items).flatten) ∧
    (∀ (ig : List String) (s : List Char), ig.contains "ol" = true →
      runScan (olStep ig) () s = s) ∧
    preserveFormat "<ol><li>a</li><li>b</li></ol><ol><li>c</li></ol>" [] =
      "1. a\n2. b\n1. c" ∧
    preserveFormat "<ol><li>a</li><li>b</li></ol>" ["ol", "li"] =
      "<ol><li>a</li><li>b</li></ol>" := by
  refine ⟨fun blocks ig hwf hol hli => olScan_render hol hli blocks hwf, ?_,
    by decide, by decide⟩
  intro ig s hol
  refine runScan_copy (fun st s' out st2 rest h => ?_) () s
  unfold olStep at h
  cases hm : matchBlock "<ol>".data "</ol>".data s' with
  | none =>
    rw [hm] at h
    simp at h
  | some x =>
    obtain ⟨sp, content, r⟩ := x
    rw [hm] at h
    simp only [Option.map_some', Option.some.injEq, Prod.mk.injEq] at h
    have hspan := matchBlock_span hm
    rw [hol] at h
    have h1 : sp = out := by simpa using h.1
    have h3 : r = rest := h.2.2
    rw [← h1, ← h3]
    exact hspan

/-- Witness for C7 at two concrete blocks. -/
theorem ol_C7_witness :
    runScan (olStep []) () (renderBlocks [["a".data, "b".data], ["c".data]]) =
      ([["a".data, "b".data], ["c".data]].map fun items => numberFrom 1 items).flatten :=
  ol_C7.1 [["a".data, "b".data], ["c".data]] [] (by decide) (by decide) (by decide)

/-! ### C5: strip mode over structured documents -/

/-- A document segment: literal text, or a tag with a closing flag, a
name and an attribute blob. -/
inductive Seg
  | txt : List Char → Seg
  | tag : Bool → List Char → List Char → Seg

/-- Render a segment back to characters. -/
def renderSeg : Seg → List Char
  | .txt s => s
  | .tag cl n a => '<' :: ((if cl then ['/'] else []) ++ (n ++ (a ++ ['>'])))

/-- Render a document. -/
def render (l : List Seg) : List Char := (l.map renderSeg).flatten

/-- A well-formed tag name: a letter followed by letters/digits. -/
def wfName : List Char → Bool
  | [] => false
  | c :: cs => asciiLetter c && cs.all fun d => asciiLetter d || asciiDigit d

/-- A well-formed attribute blob starts with a space or a slash (or is
empty), so the name's greedy run and its word boundary end at the name. -/
def wfAttrsHead : List Char → Bool
  | [] => true
  | c :: _ => c == ' ' || c == '/'

/-- Well-formed segments: text holds no angle brackets; a tag has a
well-formed name and an attribute blob with no `>`. -/
def wfSeg : Seg → Bool
  | .txt s => s.all fun c => !(c == '<') && !(c == '>')
  | .tag _ n a => wfName n && (a.all fun c => !(c == '>')) && wfAttrsHead a

/-- Which segments survive `textify`'s strip mode: text always; a tag
only if the ignore list is non-empty and its lower-cased name is in the
lower-cased ignore set. -/
def keepSeg (ig : List String) : Seg → Bool
  | .txt _ => true
  | .tag _ n _ => !ig.isEmpty && (ig.map lcStr).contains ⟨lcL n⟩

theorem matchStripAll_none_head {c : Char} {cs : List Char} (hc : c ≠ '<') :
    matchStripAll (c :: cs) = none := by
  unfold matchStripAll
  split
  · next heq =>
    obtain ⟨h1, _⟩ := List.cons.inj heq
    exact absurd h1 hc
  · rfl

theorem matchStripAll_rest {s rest : List Char} (h : matchStripAll s = some rest) :
    rest.length < s.length := by
  unfold matchStripAll at h
  split at h
  · next r0 =>
    split at h
    · exact absurd h (by simp)
    · next n heq =>
      have hr := (Option.some.inj h).symm
      have : rest.length ≤ r0.length := by
        rw [hr, List.length_drop]
        omega
      simp only [List.length_cons]
      omega
    · exact absurd h (by simp)
  · exact absurd h (by simp)

theorem stripAllStep_shrinks : StepShrinks stripAllStep := by
  intro st s out st2 rest h
  unfold stripAllStep at h
  cases hm : matchStripAll s with
  | none =>
    rw [hm] at h
    simp at h
  | some r =>
    rw [hm] at h
    simp only [Option.map_some', Option.some.injEq, Prod.mk.injEq] at h
    have := h.2.2
    subst this
    exact matchStripAll_rest hm

theorem matchStripAll_gen {inner r : List Char} (hne : inner ≠ [])
    (hna : ∀ c ∈ inner, c ≠ '>') :
    matchStripAll ('<' :: (inner ++ '>' :: r)) = some r := by
  unfold matchStripAll
  have hfind : findCh '>' (inner ++ '>' :: r) = some inner.length := findCh_append hna
  simp only [hfind]
  obtain ⟨m, hm⟩ := Nat.exists_eq_succ_of_ne_zero
    (fun h0 => hne (List.length_eq_zero.mp h0))
  rw [hm]
  show some ((inner ++ '>' :: r).drop (m + 1 + 1)) = some r
  congr 1
  rw [show inner ++ '>' :: r = (inner ++ ['>']) ++ r by simp]
  rw [show m + 1 + 1 = (inner ++ ['>']).length by simp [hm]]
  exact List.drop_left _ _

theorem matchStripAll_at {cl : Bool} {n a r : List Char}
    (hn : n ≠ []) (hna : ∀ c ∈ (if cl then ['/'] else []) ++ (n ++ a), c ≠ '>') :
    matchStripAll (renderSeg (.tag cl n a) ++ r) = some r := by
  have hshape : renderSeg (.tag cl n a) ++ r =
      '<' :: (((if cl then ['/'] else []) ++ (n ++ a)) ++ '>' :: r) := by
    simp [renderSeg]
  have hinner : ((if cl then ['/'] else []) ++ (n ++ a)) ≠ [] := by
    cases n with
    | nil => exact absurd rfl hn
    | cons c cs => cases cl <;> simp
  rw [hshape]
  exact matchStripAll_gen hinner hna

/-- `textify`'s blanket stripper on a rendered document with an empty
ignore list: every tag disappears, the text survives verbatim. -/
theorem stripAll_render : ∀ {segs : List Seg}, segs.all wfSeg = true →
    runScan stripAllStep () (render segs) =
      render (segs.filter (keepSeg [])) := by
  intro segs
  induction segs with
  | nil => intro _; rfl
  | cons sg rest ih =>
    intro hwf
    obtain ⟨hsg, hrest⟩ : wfSeg sg = true ∧ rest.all wfSeg = true := by
      simpa using hwf
    cases sg with
    | txt s =>
      have hs : ∀ c ∈ s, c ≠ '<' := by
        intro c hc
        have := List.all_eq_true.mp hsg c hc
        simp at this
        exact this.1
      have hrender : render (.txt s :: rest) = s ++ render rest := by
        simp [render, renderSeg]
      have hchunk : runScan stripAllStep () (s ++ render rest) =
          s ++ runScan stripAllStep () (render rest) := by
        apply runScan_chunk
        intro a b hab hb
        cases b with
        | nil => exact absurd rfl hb
        | cons c cs =>
          show (matchStripAll ((c :: cs) ++ render rest)).map _ = none
          rw [show (c :: cs) ++ render rest = c :: (cs ++ render rest) from rfl,
            matchStripAll_none_head (hs c (by rw [hab]; simp))]
          rfl
      have hfilter : (List.filter (keepSeg []) (.txt s :: rest)) =
          .txt s :: rest.filter (keepSeg []) := by
        simp [List.filter, keepSeg]
      rw [hrender, hchunk, ih hrest, hfilter]
      simp [render, renderSeg]
    | tag cl n a =>
      have hn : n ≠ [] := by
        intro hcon
        subst hcon
        simp [wfSeg, wfName] at hsg
      have hna : ∀ c ∈ (if cl then ['/'] else []) ++ (n ++ a), c ≠ '>' := by
        intro c hc
        simp only [List.mem_append] at hc
        rcases hc with hc | hc
        · rcases hc2 : cl with h | h <;> rw [hc2] at hc <;> simp at hc
          subst hc
          decide
        · rcases hc with hc | hc
          · -- name characters are letters/digits, never `>`
            have hclass : wfName n = true := by
              have := hsg
              simp only [wfSeg, Bool.and_eq_true] at this
              exact this.1.1
            cases n with
            | nil => exact absurd rfl hn
            | cons c0 cs =>
              obtain ⟨h0, hcs⟩ := Bool.and_eq_true _ _ |>.mp hclass
              rcases List.mem_cons.mp hc with hc | hc
              · subst hc
                intro hcon
                subst hcon
                simp [asciiLetter] at h0
              · have := List.all_eq_true.mp hcs c hc
                intro hcon
                subst hcon
                simp [asciiLetter, asciiDigit] at this
          · have hattr : (a.all fun c => !(c == '>')) = true := by
              have := hsg
              simp only [wfSeg, Bool.and_eq_true] at this
              exact this.1.2
            have := List.all_eq_true.mp hattr c hc
            simp at this
            exact this
      have hrender : render (.tag cl n a :: rest) =
          renderSeg (.tag cl n a) ++ render rest := by
        simp [render]
      have hstep : stripAllStep () (renderSeg (.tag cl n a) ++ render rest) =
          some ([], (), render rest) := by
        unfold stripAllStep
        rw [matchStripAll_at hn hna]
        rfl
      rw [hrender, runScan_match stripAllStep_shrinks hstep, ih hrest]
      simp [List.filter, keepSeg]

theorem jsWord_of_class {c : Char} (h : (asciiLetter c || asciiDigit c) = true) :
    jsWord c = true := by
  unfold asciiLetter asciiDigit at h
  unfold jsWord
  rcases Bool.or_eq_true _ _ |>.mp h with h1 | h1
  · rcases Bool.or_eq_true _ _ |>.mp h1 with h2 | h2 <;> rw [h2] <;> simp
  · rw [h1]
    simp

theorem ne_slash_of_letter {c : Char} (h : asciiLetter c = true) : c ≠ '/' := by
  intro hcon
  subst hcon
  exact absurd h (by decide)

theorem wfName_parts {n : List Char} (h : wfName n = true) :
    ∃ c0 nt, n = c0 :: nt ∧ asciiLetter c0 = true ∧
      ∀ c ∈ nt, (asciiLetter c || asciiDigit c) = true := by
  cases n with
  | nil => simp [wfName] at h
  | cons c0 nt =>
    have h2 : (asciiLetter c0 && nt.all fun d => asciiLetter d || asciiDigit d) = true := h
    obtain ⟨h0, hall⟩ := Bool.and_eq_true _ _ |>.mp h2
    exact ⟨c0, nt, rfl, h0, fun c hc => List.all_eq_true.mp hall c hc⟩

theorem takeWhile_class_run {nt a r : List Char}
    (hnt : ∀ c ∈ nt, (asciiLetter c || asciiDigit c) = true)
    (hahead : a = [] ∨ ∃ h t, a = h :: t ∧ (h = ' ' ∨ h = '/')) :
    (nt ++ (a ++ '>' :: r)).takeWhile txClass = nt := by
  have hclass : ∀ c ∈ nt, txClass c = true := by
    intro c hc
    have := hnt c hc
    unfold txClass
    rcases Bool.or_eq_true _ _ |>.mp this with h2 | h2 <;> rw [h2] <;> simp
  rw [takeWhile_append_all hclass]
  have htail : (a ++ '>' :: r).takeWhile txClass = [] := by
    rcases hahead with h | ⟨h, t, ha2, hh⟩
    · subst h
      simp only [List.nil_append]
      rw [List.takeWhile_cons_of_neg (by decide)]
    · subst ha2
      rw [List.cons_append]
      rcases hh with hh | hh <;> subst hh <;>
        rw [List.takeWhile_cons_of_neg (by decide)]
  rw [htail, List.append_nil]

theorem wordO_last_of_all {run : List Char} (hne : run ≠ [])
    (hall : ∀ c ∈ run, jsWord c = true) :
    wordO (run.get? (run.length - 1)) = true := by
  cases hget : run.get? (run.length - 1) with
  | none =>
    rw [List.get?_eq_none] at hget
    have hlen : 0 < run.length := List.length_pos.mpr hne
    exfalso
    omega
  | some c =>
    have hc : c ∈ run := List.get?_mem hget
    simp [wordO, hall c hc]

theorem pickName_full {run : List Char} {next : Option Char} (hne : run ≠ [])
    (hall : ∀ c ∈ run, jsWord c = true) (hnext : wordO next = false) :
    pickName run next run.length = some run.length := by
  obtain ⟨m, hm⟩ := Nat.exists_eq_succ_of_ne_zero
    (fun h0 => hne (List.length_eq_zero.mp h0))
  have hbound : boundaryAt run next (m + 1) = true := by
    unfold boundaryAt
    rw [if_neg (show ¬ m + 1 < run.length by omega)]
    rw [hnext]
    have hlast := wordO_last_of_all hne hall
    rw [hm, Nat.succ_sub_one] at hlast
    have hidx : m + 1 - 1 = m := rfl
    rw [hidx, hlast]
    rfl
  rw [hm]
  show (if boundaryAt run next (m + 1) then some (m + 1) else pickName run next m) = _
  rw [if_pos hbound]

theorem matchStripTxAux_at {s : List Char} {slashLen : Nat} {c0 : Char}
    {nt a r : List Char}
    (hc0 : asciiLetter c0 = true)
    (hnt : ∀ c ∈ nt, (asciiLetter c || asciiDigit c) = true)
    (ha : ∀ c ∈ a, c ≠ '>')
    (hahead : wfAttrsHead a = true) :
    matchStripTxAux s slashLen (c0 :: (nt ++ (a ++ '>' :: r))) =
      some (s.take (1 + slashLen + (nt.length + 1) + a.length + 1),
        lcL (c0 :: nt),
        s.drop (1 + slashLen + (nt.length + 1) + a.length + 1)) := by
  have hahead' : a = [] ∨ ∃ h t, a = h :: t ∧ (h = ' ' ∨ h = '/') := by
    cases a with
    | nil => exact Or.inl rfl
    | cons h t =>
      refine Or.inr ⟨h, t, rfl, ?_⟩
      have h2 : (h == ' ' || h == '/') = true := hahead
      rcases Bool.or_eq_true _ _ |>.mp h2 with hh | hh
      · exact Or.inl (eq_of_beq hh)
      · exact Or.inr (eq_of_beq hh)
  unfold matchStripTxAux
  split
  · next heq => exact absurd heq (by simp)
  · next c0' r2 heq =>
    obtain ⟨h1, h2⟩ := List.cons.inj heq
    subst h1
    subst h2
    rw [if_pos hc0]
    have htw : (nt ++ (a ++ '>' :: r)).takeWhile txClass = nt :=
      takeWhile_class_run hnt hahead'
    rw [htw]
    have hdrop : (nt ++ (a ++ '>' :: r)).drop nt.length = a ++ '>' :: r :=
      List.drop_left _ _
    rw [hdrop]
    have hallw : ∀ c ∈ c0 :: nt, jsWord c = true := by
      intro c hc
      rcases List.mem_cons.mp hc with hc | hc
      · subst hc
        exact jsWord_of_class (by rw [hc0]; rfl)
      · exact jsWord_of_class (hnt c hc)
    have hnext : wordO (a ++ '>' :: r).head? = false := by
      rcases hahead' with h | ⟨h, t, ha2, hh⟩
      · subst h
        simp [wordO, jsWord]
      · subst ha2
        rcases hh with hh | hh <;> subst hh <;> simp [wordO, jsWord]
    have hpick := pickName_full (show (c0 :: nt) ≠ [] by simp) hallw hnext
    simp only [hpick]
    have hfind : findCh '>' (a ++ '>' :: r) = some a.length := findCh_append ha
    simp only [hfind]
    rw [List.take_length]
    have hlen : (c0 :: nt).length = nt.length + 1 := by simp
    rw [hlen]

theorem matchStripTx_cons_not_slash {c0 : Char} {cs : List Char} (h : c0 ≠ '/') :
    matchStripTx ('<' :: c0 :: cs) = matchStripTxAux ('<' :: c0 :: cs) 0 (c0 :: cs) := by
  unfold matchStripTx
  split
  · next heq =>
    obtain ⟨-, h2⟩ := List.cons.inj heq
    obtain ⟨h3, -⟩ := List.cons.inj h2
    exact absurd h3 h
  · next heq =>
    obtain ⟨-, h2⟩ := List.cons.inj heq
    rw [h2]
  · next hno1 hno2 =>
    exact absurd rfl (hno2 (c0 :: cs))

/-- The `textify` strip matcher at a rendered well-formed tag: it matches
the whole tag, capturing the lower-cased name. -/
theorem matchStripTx_at {cl : Bool} {n a r : List Char}
    (hn : wfName n = true) (ha : ∀ c ∈ a, c ≠ '>') (hah : wfAttrsHead a = true) :
    matchStripTx (renderSeg (.tag cl n a) ++ r) =
      some (renderSeg (.tag cl n a), lcL n, r) := by
  obtain ⟨c0, nt, hn0, hc0, hnt⟩ := wfName_parts hn
  subst hn0
  cases cl with
  | true =>
    have hspanlen : (renderSeg (.tag true (c0 :: nt) a)).length =
        1 + 1 + (nt.length + 1) + a.length + 1 := by
      simp [renderSeg]
      omega
    have htake : (renderSeg (.tag true (c0 :: nt) a) ++ r).take
        (1 + 1 + (nt.length + 1) + a.length + 1) =
        renderSeg (.tag true (c0 :: nt) a) := by
      rw [← hspanlen]
      exact List.take_left _ _
    have hdropr : (renderSeg (.tag true (c0 :: nt) a) ++ r).drop
        (1 + 1 + (nt.length + 1) + a.length + 1) = r := by
      rw [← hspanlen]
      exact List.drop_left _ _
    have hshape : renderSeg (.tag true (c0 :: nt) a) ++ r =
        '<' :: '/' :: (c0 :: (nt ++ (a ++ '>' :: r))) := by
      simp [renderSeg]
    rw [hshape]
    show matchStripTxAux ('<' :: '/' :: (c0 :: (nt ++ (a ++ '>' :: r)))) 1
      (c0 :: (nt ++ (a ++ '>' :: r))) = _
    rw [matchStripTxAux_at hc0 hnt ha hah]
    rw [← hshape, htake, hdropr]
  | false =>
    have hspanlen : (renderSeg (.tag false (c0 :: nt) a)).length =
        1 + 0 + (nt.length + 1) + a.length + 1 := by
      simp [renderSeg]
      omega
    have htake : (renderSeg (.tag false (c0 :: nt) a) ++ r).take
        (1 + 0 + (nt.length + 1) + a.length + 1) =
        renderSeg (.tag false (c0 :: nt) a) := by
      rw [← hspanlen]
      exact List.take_left _ _
    have hdropr : (renderSeg (.tag false (c0 :: nt) a) ++ r).drop
        (1 + 0 + (nt.length + 1) + a.length + 1) = r := by
      rw [← hspanlen]
      exact List.drop_left _ _
    have hshape : renderSeg (.tag false (c0 :: nt) a) ++ r =
        '<' :: c0 :: (nt ++ (a ++ '>' :: r)) := by
      simp [renderSeg]
    rw [hshape]
    rw [matchStripTx_cons_not_slash (ne_slash_of_letter hc0)]
    rw [matchStripTxAux_at hc0 hnt ha hah]
    rw [← hshape, htake, hdropr]

theorem matchStripTx_none_head {c : Char} {cs : List Char} (hc : c ≠ '<') :
    matchStripTx (c :: cs) = none := by
  unfold matchStripTx
  split
  · next heq =>
    obtain ⟨h1, -⟩ := List.cons.inj heq
    exact absurd h1 hc
  · next heq =>
    obtain ⟨h1, -⟩ := List.cons.inj heq
    exact absurd h1 hc
  · rfl

theorem matchStripTxAux_rest {s r1 sp nm rest : List Char} {slashLen : Nat}
    (h : matchStripTxAux s slashLen r1 = some (sp, nm, rest)) :
    ∃ k, 0 < k ∧ rest = s.drop k := by
  unfold matchStripTxAux at h
  split at h
  · exact absurd h (by simp)
  · split at h
    · split at h
      · split at h
        · simp only [Option.some.injEq, Prod.mk.injEq] at h
          refine ⟨_, ?_, h.2.2.symm⟩
          omega
        · exact absurd h (by simp)
      · exact absurd h (by simp)
    · exact absurd h (by simp)

theorem matchStripTx_rest {s sp nm rest : List Char}
    (h : matchStripTx s = some (sp, nm, rest)) : rest.length < s.length := by
  unfold matchStripTx at h
  split at h
  · obtain ⟨k, hk, hr⟩ := matchStripTxAux_rest h
    subst hr
    simp only [List.length_drop]
    simp only [List.length_cons]
    omega
  · obtain ⟨k, hk, hr⟩ := matchStripTxAux_rest h
    subst hr
    simp only [List.length_drop]
    simp only [List.length_cons]
    omega
  · exact absurd h (by simp)

theorem stripTxStep_shrinks (igL : List String) : StepShrinks (stripTxStep igL) := by
  intro st s out st2 rest h
  unfold stripTxStep at h
  cases hm : matchStripTx s with
  | none =>
    rw [hm] at h
    exact absurd h (by simp)
  | some t =>
    obtain ⟨sp, nm, r⟩ := t
    rw [hm] at h
    simp only [Option.map, Option.some.injEq, Prod.mk.injEq] at h
    obtain ⟨-, -, hr⟩ := h
    subst hr
    exact matchStripTx_rest hm

theorem stripTx_render {ig : List String} (hig : ig ≠ []) :
    ∀ {segs : List Seg}, segs.all wfSeg = true →
      runScan (stripTxStep (ig.map lcStr)) () (render segs) =
        render (segs.filter (keepSeg ig)) := by
  have hige : ig.isEmpty = false := by
    cases ig with
    | nil => exact absurd rfl hig
    | cons e es => rfl
  intro segs
  induction segs with
  | nil => intro _; rfl
  | cons sg rest ih =>
    intro hwf
    obtain ⟨hsg, hrest⟩ : wfSeg sg = true ∧ rest.all wfSeg = true := by
      simpa using hwf
    cases sg with
    | txt s =>
      have hs : ∀ c ∈ s, c ≠ '<' := by
        intro c hc
        have := List.all_eq_true.mp hsg c hc
        simp at this
        exact this.1
      have hrender : render (.txt s :: rest) = s ++ render rest := by
        simp [render, renderSeg]
      have hchunk : runScan (stripTxStep (ig.map lcStr)) () (s ++ render rest) =
          s ++ runScan (stripTxStep (ig.map lcStr)) () (render rest) := by
        apply runScan_chunk
        intro a b hab hb
        cases b with
        | nil => exact absurd rfl hb
        | cons c cs =>
          show (matchStripTx ((c :: cs) ++ render rest)).map _ = none
          rw [show (c :: cs) ++ render rest = c :: (cs ++ render rest) from rfl,
            matchStripTx_none_head (hs c (by rw [hab]; simp))]
          rfl
      have hfilter : (List.filter (keepSeg ig) (.txt s :: rest)) =
          .txt s :: rest.filter (keepSeg ig) := by
        simp [List.filter, keepSeg]
      rw [hrender, hchunk, ih hrest, hfilter]
      simp [render, renderSeg]
    | tag cl n a =>
      have hparts : wfName n = true ∧ (∀ c ∈ a, c ≠ '>') ∧ wfAttrsHead a = true := by
        simp only [wfSeg, Bool.and_eq_true] at hsg
        refine ⟨hsg.1.1, ?_, hsg.2⟩
        intro c hc
        have := List.all_eq_true.mp hsg.1.2 c hc
        simp at this
        exact this
      have hrender : render (.tag cl n a :: rest) =
          renderSeg (.tag cl n a) ++ render rest := by
        simp [render]
      have hstep : stripTxStep (ig.map lcStr) () (renderSeg (.tag cl n a) ++ render rest) =
          some ((if (ig.map lcStr).contains ⟨lcL n⟩ then renderSeg (.tag cl n a) else []),
            (), render rest) := by
        unfold stripTxStep
        rw [matchStripTx_at hparts.1 hparts.2.1 hparts.2.2]
        rfl
      rw [hrender, runScan_match (stripTxStep_shrinks _) hstep, ih hrest]
      cases hk : (ig.map lcStr).contains ⟨lcL n⟩ with
      | false =>
        have hkeep : keepSeg ig (.tag cl n a) = false := by
          show (!ig.isEmpty && (ig.map lcStr).contains ⟨lcL n⟩) = false
          rw [hk]
          simp
        simp [List.filter, hkeep]
      | true =>
        have hkeep : keepSeg ig (.tag cl n a) = true := by
          show (!ig.isEmpty && (ig.map lcStr).contains ⟨lcL n⟩) = true
          rw [hk, hige]
          rfl
        simp [List.filter, hkeep, render]

theorem render_filter_nil {segs : List Seg} {p : Seg → Bool} (h : render segs = []) :
    render (segs.filter p) = [] := by
  induction segs with
  | nil => rfl
  | cons sg rest ih =>
    have h2 : renderSeg sg = [] ∧ render rest = [] := by
      simpa [render] using h
    cases hp : p sg with
    | false =>
      simp only [List.filter, hp]
      exact ih h2.2
    | true =>
      simp only [List.filter, hp]
      show renderSeg sg ++ render (rest.filter p) = []
      rw [h2.1, ih h2.2]
      rfl

/-- C5: in strip mode (`preserveFormatting = false`) `textify` removes
exactly the tags whose lower-cased name is not in the lower-cased ignore
list, trims the result, and performs no entity decoding: for every
well-formed document the output is literally the trimmed concatenation of
the surviving segments, and entity sequences such as `&amp;`, `&lt;`,
`&gt;`, `&nbsp;` in the text are left unchanged. -/
theorem textify_C5 :
    (∀ (segs : List Seg) (ig : List String), segs.all wfSeg = true →
      textify ⟨render segs⟩ false ig none none =
        ⟨jsTrim (render (segs.filter (keepSeg ig)))⟩) ∧
    textify "<p>a &amp; b &lt; c &gt; d&nbsp;e</p>" false [] none none =
      "a &amp; b &lt; c &gt; d&nbsp;e" ∧
    textify "<div>x</div> <SPAN id=\"k\">y</SPAN>" false ["span"] none none =
      "x <SPAN id=\"k\">y</SPAN>" := by
  refine ⟨?_, by decide, by decide⟩
  intro segs ig hwf
  by_cases h0 : (⟨render segs⟩ : String) = ""
  · unfold textify
    rw [if_pos h0]
    have hr : render segs = [] := congrArg String.data h0
    rw [render_filter_nil hr]
    rfl
  · unfold textify
    rw [if_neg h0]
    show (⟨textifyStripL ig (render segs)⟩ : String) = _
    unfold textifyStripL
    by_cases hig : ig = []
    · rw [if_pos hig]
      subst hig
      rw [stripAll_render hwf]
    · rw [if_neg hig]
      rw [stripTx_render hig hwf]

/-- Witness for C5 at a concrete well-formed document. -/
theorem textify_C5_witness :
    ([Seg.tag false ['d','i','v'] [], Seg.txt ['h','i'],
        Seg.tag true ['d','i','v'] []].all wfSeg = true) ∧
    textify ⟨render [Seg.tag false ['d','i','v'] [], Seg.txt ['h','i'],
        Seg.tag true ['d','i','v'] []]⟩ false ["b"] none none =
      ⟨jsTrim (render ([Seg.tag false ['d','i','v'] [], Seg.txt ['h','i'],
        Seg.tag true ['d','i','v'] []].filter (keepSeg ["b"])))⟩ :=
  ⟨by decide, textify_C5.1 [Seg.tag false ['d','i','v'] [], Seg.txt ['h','i'],
    Seg.tag true ['d','i','v'] []] ["b"] (by decide)⟩

end HtmlTextify
